import Mathlib

set_option maxHeartbeats 1000000

/-!
Shallow embedding of the solar-tracker weekly aggregation engine
(src/components/solar-tracker.tsx, src/unnamed/part_001 = the SolarChart
component, src/unnamed/part_002 = the worker module).

Modelling conventions:
* Calendar dates are integer day numbers (day 0 = 1970-01-01, a Thursday);
  the ISO "yyyy-MM-dd" strings used as keys in the source are in bijection
  with day numbers, `date-fns.addDays` is integer addition and
  `date-fns.startOfWeek` (default convention: week starts on Sunday) is
  `weekStart` below.  `Option Int` models a date field that may be the JS
  value `undefined` (as happens for malformed bulk-load elements).
* Productions are rationals (JS numbers; NaN/Infinity are outside the model).
* `crypto.randomUUID()` is modelled by a fresh-id counter (`nextId`)
  threaded through the state: each generated id is the current counter
  value, and the counter is incremented, so generated ids are distinct
  from every id already below the counter.
* JS `Map` objects are association lists with `listMapGet`/`listMapSet`/
  `listMapDel` mirroring `get`/`set`/`delete`.
-/

structure SolarEntry where
  date : Option Int
  production : Rat
  id : Nat
deriving DecidableEq, Repr

/-- A raw element of the persisted payload, before the bulk-load processing
(`processChunk` / `processEntries`) runs: `id` and `date` may be absent,
`production` is the JS number the source obtains via `Number(entry.production)`
(string-to-number coercion of well-formed numerals is outside the model). -/
structure RawEntry where
  id : Option Nat
  date : Option Int
  production : Rat
deriving DecidableEq, Repr

/-- JS `Map.get`. -/
def listMapGet {K V : Type} [DecidableEq K] (k : K) : List (K × V) → Option V
  | [] => none
  | (k', v) :: rest => if k' = k then some v else listMapGet k rest

/-- JS `Map.set` (replace the binding if the key is present, else append). -/
def listMapSet {K V : Type} [DecidableEq K] (k : K) (v : V) : List (K × V) → List (K × V)
  | [] => [(k, v)]
  | (k', v') :: rest => if k' = k then (k, v) :: rest else (k', v') :: listMapSet k v rest

/-- JS `Map.delete`. -/
def listMapDel {K V : Type} [DecidableEq K] (k : K) : List (K × V) → List (K × V)
  | [] => []
  | (k', v) :: rest => if k' = k then listMapDel k rest else (k', v) :: listMapDel k rest

/-- The component state of `SolarTracker` that the core logic touches:
`entries` (React state), `entriesMapRef`, `pendingUpdatesRef`,
`weeklyEntriesCache` (single slot keyed by the week-start date), the
fresh-id supply, and the selected anchor `date` (null before mount). -/
structure TrackerState where
  entries : List SolarEntry
  entriesMap : List (Option Int × SolarEntry)
  pendingUpdates : List (Int × Rat)
  weeklyCache : Option (Int × List SolarEntry)
  nextId : Nat
  anchor : Option Int
deriving DecidableEq, Repr

def initState : TrackerState :=
  { entries := [], entriesMap := [], pendingUpdates := [], weeklyCache := none,
    nextId := 0, anchor := none }

/-- `date-fns.startOfWeek` with the default Sunday convention: day 0 of the
epoch is a Thursday, so the day-of-week index (0 = Sunday) of day `d` is
`(d + 4) % 7`. -/
def weekStart (d : Int) : Int := d - (d + 4) % 7

/-- The 7 days `weekStart .. weekStart + 6` materialized by the week loop. -/
def weekDays (ws : Int) : List Int := [ws, ws + 1, ws + 2, ws + 3, ws + 4, ws + 5, ws + 6]

/-- `handleDateChange` / the mount-time `setDate(new Date())`: future dates
are rejected with a toast, otherwise the anchor is set (the form bookkeeping
it also performs is outside the core state). -/
def setAnchor (today a : Int) (s : TrackerState) : TrackerState :=
  if today < a then s else { s with anchor := some a }

/-- `Array.prototype.findIndex (entry => entry.date === date)`. -/
def findIndexByDate (d : Int) : List SolarEntry → Option Nat
  | [] => none
  | e :: rest => if e.date = some d then some 0 else (findIndexByDate d rest).map (· + 1)

/-- `updatedEntries[existingEntryIndex] = { ...old, production }`. -/
def setProductionAt (p : Rat) : List SolarEntry → Nat → List SolarEntry
  | [], _ => []
  | e :: rest, 0 => { e with production := p } :: rest
  | e :: rest, Nat.succ n => e :: setProductionAt p rest n

/-- `updateEntry(date, production)` from solar-tracker.tsx: reject values
outside [0, 100]; otherwise record the pending update, replace the first
entry with this date (keeping its id) or append a new entry with a fresh id,
update the entries map with the resulting entry, invalidate the weekly
cache, and finally remove the pending update again. -/
def updateEntry (d : Int) (p : Rat) (s : TrackerState) : TrackerState :=
  if p < 0 then s
  else if 100 < p then s
  else
    let pend := listMapSet d p s.pendingUpdates
    match findIndexByDate d s.entries with
    | some i =>
        let updated := setProductionAt p s.entries i
        let m :=
          match updated.get? i with
          | some e => listMapSet (some d) e s.entriesMap
          | none => s.entriesMap
        { s with entries := updated, entriesMap := m,
                 pendingUpdates := listMapDel d pend,
                 weeklyCache := none }
    | none =>
        let newEntry : SolarEntry := { date := some d, production := p, id := s.nextId }
        { s with entries := s.entries ++ [newEntry],
                 entriesMap := listMapSet (some d) newEntry s.entriesMap,
                 pendingUpdates := listMapDel d pend,
                 weeklyCache := none,
                 nextId := s.nextId + 1 }

/-- `updatedEntries.forEach(e => map.set(e.date, e))` over a fresh map. -/
def rebuildEntriesMap (l : List SolarEntry) : List (Option Int × SolarEntry) :=
  l.foldl (fun m e => listMapSet e.date e m) []

/-- `updateEntriesState`: store the new list, rebuild the lookup map from it,
and invalidate the weekly cache. -/
def updateEntriesState (updated : List SolarEntry) (s : TrackerState) : TrackerState :=
  { s with entries := updated, entriesMap := rebuildEntriesMap updated, weeklyCache := none }

/-- `onSubmit` (form submission): requires a selected non-future anchor date;
the production value has already passed `formSchema` (nonnegative, at most
100).  If the map has an entry for the date, every list entry with that date
gets the new production (ids kept); otherwise a new entry with a fresh id is
appended.  Both branches go through `updateEntriesState`. -/
def onSubmit (today : Int) (p : Rat) (s : TrackerState) : TrackerState :=
  match s.anchor with
  | none => s
  | some d =>
      if today < d then s
      else
        match listMapGet (some d) s.entriesMap with
        | some _ =>
            updateEntriesState
              (s.entries.map (fun e => if e.date = some d then { e with production := p } else e)) s
        | none =>
            let newEntry : SolarEntry := { date := some d, production := p, id := s.nextId }
            updateEntriesState (s.entries ++ [newEntry]) { s with nextId := s.nextId + 1 }

/-- The element-wise processing of `processChunk` (and of the worker's
`processEntries`): keep the stored id or generate a fresh one, keep the date
as-is (even if absent), and coerce the production to a number. -/
def processRaw (fresh : Nat) : List RawEntry → List SolarEntry × Nat
  | [] => ([], fresh)
  | r :: rest =>
      let e : SolarEntry := { date := r.date, production := r.production, id := r.id.getD fresh }
      let f := match r.id with | some _ => fresh | none => fresh + 1
      let (es, f') := processRaw f rest
      (e :: es, f')

/-- The chunk size of the deferred bulk load: the load effect starts the
chunked processing with `processChunk(savedEntries, 0, 50)`. -/
def chunkSize : Nat := 50

/-- `processChunk` from the load effect: each call processes the next
`chunkSize`-element slice (keep-or-generate the id, keep the date as-is,
coerce the production to a number) and `set`s every processed element into
the entries map (so the last element wins per date key); then it either
schedules the next chunk (`endIndex < entries.length`) or — in the final
call only — appends its own chunk's processed elements to the entries
list (`setEntries(prev => [...prev, ...processedChunk])`).  Elements of
earlier chunks therefore reach only the lookup map, never the listing.
The weekly cache is not invalidated anywhere on this path. -/
def processChunks (remaining : List RawEntry) (s : TrackerState) : TrackerState :=
  let processed := (processRaw s.nextId (remaining.take chunkSize)).1
  let s1 : TrackerState :=
    { s with
        entriesMap := processed.foldl (fun m e => listMapSet e.date e m) s.entriesMap,
        nextId := (processRaw s.nextId (remaining.take chunkSize)).2 }
  if _hrem : chunkSize < remaining.length then
    processChunks (remaining.drop chunkSize) s1
  else
    { s1 with entries := s1.entries ++ processed }
termination_by remaining.length
decreasing_by
  simp only [List.length_drop]
  simp only [chunkSize] at _hrem ⊢
  omega

/-- The slice of the input batch handled by the final `processChunk` call —
the only elements that are appended to the entries listing. -/
def finalChunk (l : List RawEntry) : List RawEntry :=
  if _hl : chunkSize < l.length then finalChunk (l.drop chunkSize) else l
termination_by l.length
decreasing_by
  simp only [List.length_drop]
  simp only [chunkSize] at _hl ⊢
  omega

/-- The startup bulk load: the whole deferred, chunked `processChunk`
cascade, started at index 0. -/
def loadEntries (raw : List RawEntry) (s : TrackerState) : TrackerState :=
  processChunks raw s

/-- The worker module's `processEntries`: same element-wise processing, with
a lookup map built from scratch. -/
def processEntriesWorker (fresh : Nat) (raw : List RawEntry) :
    List SolarEntry × List (Option Int × SolarEntry) :=
  let (es, _) := processRaw fresh raw
  (es, es.foldl (fun m e => listMapSet e.date e m) [])

/-- One day of the week-materialization loop in `getCurrentWeekEntries`:
pending value first (id from the stored entry if present, else fresh), then
the stored entry, then a zero-production placeholder with a fresh id. -/
def materializeDay (s : TrackerState) (d : Int) (fresh : Nat) : SolarEntry × Nat :=
  match listMapGet d s.pendingUpdates with
  | some p =>
      match listMapGet (some d) s.entriesMap with
      | some e => ({ date := some d, production := p, id := e.id }, fresh)
      | none => ({ date := some d, production := p, id := fresh }, fresh + 1)
  | none =>
      match listMapGet (some d) s.entriesMap with
      | some e => ({ date := some d, production := e.production, id := e.id }, fresh)
      | none => ({ date := some d, production := 0, id := fresh }, fresh + 1)

def materializeFrom (s : TrackerState) : List Int → Nat → List SolarEntry × Nat
  | [], fresh => ([], fresh)
  | d :: ds, fresh =>
      let (e, f1) := materializeDay s d fresh
      let (es, f2) := materializeFrom s ds f1
      (e :: es, f2)

/-- The cache-miss path of `getCurrentWeekEntries`: materialize the 7 days
and store the result in the single-slot cache. -/
def computeWeek (s : TrackerState) (ws : Int) : List SolarEntry × TrackerState :=
  let (es, f) := materializeFrom s (weekDays ws) s.nextId
  (es, { s with weeklyCache := some (ws, es), nextId := f })

/-- `getCurrentWeekEntries`: empty when no anchor is set; cached result when
the cache slot is keyed by the requested week start; otherwise recompute. -/
def getCurrentWeekEntries (s : TrackerState) : List SolarEntry × TrackerState :=
  match s.anchor with
  | none => ([], s)
  | some a =>
      let ws := weekStart a
      match s.weeklyCache with
      | some (cws, cached) => if cws = ws then (cached, s) else computeWeek s ws
      | none => computeWeek s ws

/-- The production the pending-over-stored-else-zero merge assigns to day
`d` (a projection of `materializeDay`, used to state theorems). -/
def mergedProduction (s : TrackerState) (d : Int) : Rat :=
  match listMapGet d s.pendingUpdates with
  | some p => p
  | none =>
      match listMapGet (some d) s.entriesMap with
      | some e => e.production
      | none => 0

structure WeeklyStats where
  weeklyTotal : Rat
  dailyAverage : Rat
  maxProduction : Rat
  maxProductionDay : Option SolarEntry
deriving DecidableEq, Repr

structure StatsAcc where
  total : Rat
  daysWithProduction : Nat
  maxProduction : Rat
  maxProductionDay : Option SolarEntry
deriving DecidableEq, Repr

/-- The reducer body of the `weeklyStats` single-pass `reduce`. -/
def statsStep (acc : StatsAcc) (e : SolarEntry) : StatsAcc :=
  let a1 := { acc with total := acc.total + e.production }
  let a2 :=
    if 0 < e.production then { a1 with daysWithProduction := a1.daysWithProduction + 1 } else a1
  if a2.maxProduction < e.production then
    { a2 with maxProduction := e.production, maxProductionDay := some e }
  else a2

/-- `weeklyStats` from solar-tracker.tsx (empty input short-circuits to
all-zero stats with the max day absent). -/
def weeklyStats (l : List SolarEntry) : WeeklyStats :=
  if l.isEmpty then
    { weeklyTotal := 0, dailyAverage := 0, maxProduction := 0, maxProductionDay := none }
  else
    let acc := l.foldl statsStep
      { total := 0, daysWithProduction := 0, maxProduction := 0, maxProductionDay := none }
    { weeklyTotal := acc.total,
      dailyAverage :=
        if 0 < acc.daysWithProduction then acc.total / (acc.daysWithProduction : Rat) else 0,
      maxProduction := acc.maxProduction,
      maxProductionDay := acc.maxProductionDay }

/-- `calculateStats` from the worker module (separate passes for total, the
producing-day count, and the max scan starting from 0 / null). -/
def calculateStats (l : List SolarEntry) : WeeklyStats :=
  let total := l.foldl (fun sum e => sum + e.production) 0
  let daysWithProduction := (l.filter (fun e => 0 < e.production)).length
  let dailyAverage := if 0 < daysWithProduction then total / (daysWithProduction : Rat) else 0
  let maxScan := l.foldl
    (fun acc e => if acc.1 < e.production then (e.production, some e) else acc)
    ((0 : Rat), (none : Option SolarEntry))
  { weeklyTotal := total, dailyAverage := dailyAverage,
    maxProduction := maxScan.1, maxProductionDay := maxScan.2 }

/-- Gregorian date (year, month 1..12, day 1..31) of an epoch day number
(Howard Hinnant's civil-from-days; all intermediate divisions act on
nonnegative operands, so Lean's truncated `Int` division agrees with the
floor division the algorithm needs). -/
def civilFromDays (z0 : Int) : Int × Int × Int :=
  let z := z0 + 719468
  let era : Int := if 0 ≤ z then z / 146097 else (z - 146096) / 146097
  let doe : Int := z - era * 146097
  let yoe : Int := (doe - doe / 1460 + doe / 36524 - doe / 146096) / 365
  let y : Int := yoe + era * 400
  let doy : Int := doe - (365 * yoe + yoe / 4 - yoe / 100)
  let mp : Int := (5 * doy + 2) / 153
  let d : Int := doy - (153 * mp + 2) / 5 + 1
  let m : Int := if mp < 10 then mp + 3 else mp - 9
  (if m ≤ 2 then y + 1 else y, m, d)

def dayNames : List String := ["Sun", "Mon", "Tue", "Wed", "Thu", "Fri", "Sat"]

def monthNames : List String :=
  ["Jan", "Feb", "Mar", "Apr", "May", "Jun", "Jul", "Aug", "Sep", "Oct", "Nov", "Dec"]

/-- Day-of-week index (0 = Sunday) of an epoch day number. -/
def dayOfWeekIdx (n : Int) : Nat := ((n + 4) % 7).toNat

/-- `date-fns.format(date, "EEE, MMM d")`. -/
def formatEEEMMMd (n : Int) : String :=
  let c := civilFromDays n
  (dayNames.getD (dayOfWeekIdx n) "") ++ ", " ++
    (monthNames.getD (c.2.1 - 1).toNat "") ++ " " ++ toString c.2.2

/-- One element of the pre-processed `chartData` array of SolarChart. -/
structure ChartBar where
  key : Option Int
  index : Nat
  dayOfMonth : String
  formattedDate : String
  production : Rat
  heightPercentage : Rat
  isEmpty : Bool
deriving DecidableEq, Repr

/-- The `maxValue` memo of SolarChart: 10 for an empty input, else the strict
max scan starting from 0, with `max || 10` turning an all-zero scan result
into 10. -/
def solarChartMaxValue (entries : List SolarEntry) : Rat :=
  if entries.isEmpty then 10
  else
    let m := entries.foldl (fun mx e => if mx < e.production then e.production else mx) 0
    if m = 0 then 10 else m

/-- The `chartData` memo of SolarChart. -/
def chartData (entries : List SolarEntry) : List ChartBar :=
  let maxValue := solarChartMaxValue entries
  entries.enum.map (fun (ie : Nat × SolarEntry) =>
    let e := ie.2
    let n := e.date.getD 0
    ({ key := e.date,
       index := ie.1,
       dayOfMonth := toString (civilFromDays n).2.2,
       formattedDate := formatEEEMMMd n,
       production := e.production,
       heightPercentage :=
         if e.production ≤ 0 then 4 else max 5 (e.production / maxValue * 100),
       isEmpty := decide (e.production ≤ 0) } : ChartBar))

/-- An element of the worker's `processChartData` output (`dayOfMonth`,
`dayOfWeek`, `month`, `formattedDate` come from `new Date(entry.date)`). -/
structure WorkerChartEntry where
  date : Option Int
  production : Rat
  id : Nat
  dayOfMonth : Int
  dayOfWeek : Nat
  month : Int
  formattedDate : String
deriving DecidableEq, Repr

def decorateWorkerEntry (e : SolarEntry) : WorkerChartEntry :=
  let n := e.date.getD 0
  let c := civilFromDays n
  { date := e.date, production := e.production, id := e.id,
    dayOfMonth := c.2.2, dayOfWeek := dayOfWeekIdx n, month := c.2.1 - 1,
    formattedDate := toString c.2.1 ++ "/" ++ toString c.2.2 }

structure ChartWorkerResult where
  maxValue : Rat
  processedEntries : List WorkerChartEntry
deriving DecidableEq, Repr

/-- The worker's `processChartData`: empty input yields `maxValue = 0` with
no processed entries; otherwise `Math.max(...productions) || 10`. -/
def processChartData (entries : List SolarEntry) : ChartWorkerResult :=
  match entries with
  | [] => { maxValue := 0, processedEntries := [] }
  | e :: rest =>
      let m := rest.foldl (fun a b => max a b.production) e.production
      { maxValue := if m = 0 then 10 else m,
        processedEntries := (e :: rest).map decorateWorkerEntry }

/-- States reachable through the operations of the tracker (including the
startup bulk load, whose input is whatever the external store held). -/
inductive Reachable : TrackerState → Prop
  | init : Reachable initState
  | anchor (today a : Int) {s : TrackerState} :
      Reachable s → Reachable (setAnchor today a s)
  | upsert (d : Int) (p : Rat) {s : TrackerState} :
      Reachable s → Reachable (updateEntry d p s)
  | submit (today : Int) (p : Rat) {s : TrackerState} :
      0 ≤ p → p ≤ 100 → Reachable s → Reachable (onSubmit today p s)
  | load (raw : List RawEntry) {s : TrackerState} :
      Reachable s → Reachable (loadEntries raw s)
  | week {s : TrackerState} :
      Reachable s → Reachable (getCurrentWeekEntries s).2

/-- States reachable without the bulk-load path: entries enter only through
`updateEntry` (self-validating) or a form submission (validated by
`formSchema`, hence the [0, 100] hypotheses on `submit`). -/
inductive ReachableNoLoad : TrackerState → Prop
  | init : ReachableNoLoad initState
  | anchor (today a : Int) {s : TrackerState} :
      ReachableNoLoad s → ReachableNoLoad (setAnchor today a s)
  | upsert (d : Int) (p : Rat) {s : TrackerState} :
      ReachableNoLoad s → ReachableNoLoad (updateEntry d p s)
  | submit (today : Int) (p : Rat) {s : TrackerState} :
      0 ≤ p → p ≤ 100 → ReachableNoLoad s → ReachableNoLoad (onSubmit today p s)
  | week {s : TrackerState} :
      ReachableNoLoad s → ReachableNoLoad (getCurrentWeekEntries s).2

/-!
The debounced-save effect, modelled as an explicit timer system: `timers`
is the host's set of scheduled timeouts (id, fire time, captured snapshot),
`saveRef` is `saveTimeoutRef.current`, and `writes` is the sequence of
`safeStorage.set(STORAGE_KEY, …)` calls that actually happened.
-/

structure SaveSys where
  timers : List (Nat × Int × List SolarEntry)
  nextTimer : Nat
  saveRef : Option Nat
  writes : List (List SolarEntry)
deriving DecidableEq, Repr

def initSaveSys : SaveSys := { timers := [], nextTimer := 0, saveRef := none, writes := [] }

def saveDebounceMs : Int := 500

/-- `if (saveTimeoutRef.current) clearTimeout(saveTimeoutRef.current)`. -/
def clearScheduledSave (s : SaveSys) : SaveSys :=
  match s.saveRef with
  | some i => { s with timers := listMapDel i s.timers }
  | none => s

/-- The body of the save effect, run on every post-initialization mutation of
`entries` at time `t`: cancel the previously scheduled write, then schedule a
write of the current snapshot 500 ms later. -/
def scheduleSave (t : Int) (snapshot : List SolarEntry) (s : SaveSys) : SaveSys :=
  let s1 := clearScheduledSave s
  { s1 with timers := s1.timers ++ [(s1.nextTimer, t + saveDebounceMs, snapshot)],
            nextTimer := s1.nextTimer + 1,
            saveRef := some s1.nextTimer }

/-- The host fires timer `i` (only possible while it is still scheduled):
the callback writes the captured snapshot and nulls `saveTimeoutRef`. -/
def fireSave (i : Nat) (s : SaveSys) : SaveSys :=
  match listMapGet i s.timers with
  | some (_, snapshot) =>
      { s with timers := listMapDel i s.timers,
               writes := s.writes ++ [snapshot],
               saveRef := none }
  | none => s

inductive SaveReachable : SaveSys → Prop
  | init : SaveReachable initSaveSys
  | mutate (t : Int) (snap : List SolarEntry) {s : SaveSys} :
      SaveReachable s → SaveReachable (scheduleSave t snap s)
  | fire (i : Nat) {s : SaveSys} :
      SaveReachable s → SaveReachable (fireSave i s)

/-- The store invariant maintained by the validated entry paths: every
entry's production lies in [0, 100], entries have pairwise-distinct dates,
and every entry's date is a key of the lookup map. -/
def StoreInv (s : TrackerState) : Prop :=
  (∀ e ∈ s.entries, 0 ≤ e.production ∧ e.production ≤ 100) ∧
  (s.entries.map (fun e => e.date)).Nodup ∧
  (∀ e ∈ s.entries, (listMapGet e.date s.entriesMap).isSome = true)

/-- Invariant of the debounced-save system: at most one scheduled write is
pending, and any pending timer is the one tracked by `saveTimeoutRef` (with
an id below the id supply). -/
def SaveInv (s : SaveSys) : Prop :=
  s.timers.length ≤ 1 ∧ ∀ tr ∈ s.timers, s.saveRef = some tr.1 ∧ tr.1 < s.nextTimer

/-! ### Association-map lemmas -/

theorem listMapGet_set_self {K V : Type} [DecidableEq K] (k : K) (v : V) (m : List (K × V)) :
    listMapGet k (listMapSet k v m) = some v := by
  induction m with
  | nil => simp [listMapSet, listMapGet]
  | cons kv rest ih =>
      obtain ⟨k', v'⟩ := kv
      by_cases h : k' = k
      · simp [listMapSet, listMapGet, h]
      · simp [listMapSet, listMapGet, h, ih]

theorem listMapGet_set_ne {K V : Type} [DecidableEq K] (k k' : K) (v : V) (m : List (K × V))
    (h : k' ≠ k) : listMapGet k' (listMapSet k v m) = listMapGet k' m := by
  induction m with
  | nil => simp [listMapSet, listMapGet, Ne.symm h]
  | cons kv rest ih =>
      obtain ⟨k0, v0⟩ := kv
      by_cases hk : k0 = k
      · subst hk
        simp [listMapSet, listMapGet, Ne.symm h]
      · simp [listMapSet, listMapGet, hk, ih]

theorem listMapGet_del_self {K V : Type} [DecidableEq K] (k : K) (m : List (K × V)) :
    listMapGet k (listMapDel k m) = none := by
  induction m with
  | nil => simp [listMapDel, listMapGet]
  | cons kv rest ih =>
      obtain ⟨k0, v0⟩ := kv
      by_cases h : k0 = k
      · simp [listMapDel, listMapGet, h, ih]
      · simp [listMapDel, listMapGet, h, ih]

theorem listMapDel_set_self {K V : Type} [DecidableEq K] (k : K) (v : V) (m : List (K × V)) :
    listMapDel k (listMapSet k v m) = listMapDel k m := by
  induction m with
  | nil => simp [listMapSet, listMapDel]
  | cons kv rest ih =>
      obtain ⟨k0, v0⟩ := kv
      by_cases h : k0 = k
      · simp [listMapSet, listMapDel, h, ih]
      · simp [listMapSet, listMapDel, h, ih]

theorem isSome_listMapGet_set {K V : Type} [DecidableEq K] (k k' : K) (v : V) (m : List (K × V))
    (h : (listMapGet k' m).isSome = true) :
    (listMapGet k' (listMapSet k v m)).isSome = true := by
  by_cases hk : k' = k
  · subst hk; simp [listMapGet_set_self]
  · rwa [listMapGet_set_ne k k' v m hk]

theorem listMapDel_of_all_key {K V : Type} [DecidableEq K] (k : K) (m : List (K × V))
    (h : ∀ kv ∈ m, kv.1 = k) : listMapDel k m = [] := by
  induction m with
  | nil => rfl
  | cons kv rest ih =>
      obtain ⟨k0, v0⟩ := kv
      have hk : k0 = k := h (k0, v0) (by simp)
      simp [listMapDel, hk, ih fun kv hkv => h kv (by simp [hkv])]

/-! ### findIndex / in-place update lemmas -/

theorem findIndexByDate_none_iff (d : Int) (l : List SolarEntry) :
    findIndexByDate d l = none ↔ ∀ e ∈ l, e.date ≠ some d := by
  induction l with
  | nil => simp [findIndexByDate]
  | cons e rest ih =>
      by_cases h : e.date = some d
      · simp [findIndexByDate, h]
      · simp [findIndexByDate, h, ih]

theorem findIndexByDate_get (d : Int) (l : List SolarEntry) :
    ∀ i, findIndexByDate d l = some i → ∃ x, l.get? i = some x ∧ x.date = some d := by
  induction l with
  | nil => intro i hi; simp [findIndexByDate] at hi
  | cons e rest ih =>
      intro i hi
      by_cases h : e.date = some d
      · simp [findIndexByDate, h] at hi
        exact ⟨e, by simp [← hi], h⟩
      · simp [findIndexByDate, h] at hi
        obtain ⟨j, hj, hij⟩ := hi
        obtain ⟨x, hx, hxd⟩ := ih j hj
        exact ⟨x, by rw [← hij]; simpa using hx, hxd⟩

theorem findIndexByDate_lt (d : Int) (l : List SolarEntry) (i : Nat)
    (h : findIndexByDate d l = some i) : i < l.length := by
  obtain ⟨x, hx, -⟩ := findIndexByDate_get d l i h
  exact List.get?_eq_some.mp hx |>.1

theorem setProductionAt_map_date (p : Rat) (l : List SolarEntry) (i : Nat) :
    (setProductionAt p l i).map (fun e => e.date) = l.map (fun e => e.date) := by
  induction l generalizing i with
  | nil => rfl
  | cons e rest ih =>
      cases i with
      | zero => simp [setProductionAt]
      | succ n => simp [setProductionAt, ih]

theorem setProductionAt_get?_self (p : Rat) (l : List SolarEntry) (i : Nat) (x : SolarEntry)
    (h : l.get? i = some x) :
    (setProductionAt p l i).get? i = some { x with production := p } := by
  induction l generalizing i with
  | nil => simp at h
  | cons e rest ih =>
      cases i with
      | zero => simp at h; simp [setProductionAt, h]
      | succ n =>
          simp at h
          simpa [setProductionAt] using ih n (by simpa using h)

theorem setProductionAt_mem (p : Rat) (l : List SolarEntry) (i : Nat) (y : SolarEntry)
    (hy : y ∈ setProductionAt p l i) :
    y ∈ l ∨ ∃ x ∈ l, y = { x with production := p } := by
  induction l generalizing i with
  | nil => simp [setProductionAt] at hy
  | cons e rest ih =>
      cases i with
      | zero =>
          simp [setProductionAt] at hy
          rcases hy with hy | hy
          · exact Or.inr ⟨e, by simp, hy⟩
          · exact Or.inl (by simp [hy])
      | succ n =>
          simp [setProductionAt] at hy
          rcases hy with hy | hy
          · exact Or.inl (by simp [hy])
          · rcases ih n hy with h | ⟨x, hx, hxx⟩
            · exact Or.inl (by simp [h])
            · exact Or.inr ⟨x, by simp [hx], hxx⟩

theorem findIndexByDate_setProductionAt (d : Int) (p : Rat) (l : List SolarEntry) (i : Nat) :
    findIndexByDate d (setProductionAt p l i) = findIndexByDate d l := by
  induction l generalizing i with
  | nil => rfl
  | cons e rest ih =>
      cases i with
      | zero => simp [setProductionAt, findIndexByDate]
      | succ n => simp [setProductionAt, findIndexByDate, ih]

theorem findIndexByDate_append_of_none (d : Int) (l : List SolarEntry) (x : SolarEntry)
    (h : findIndexByDate d l = none) (hx : x.date = some d) :
    findIndexByDate d (l ++ [x]) = some l.length := by
  induction l with
  | nil => simp [findIndexByDate, hx]
  | cons e rest ih =>
      by_cases he : e.date = some d
      · simp [findIndexByDate, he] at h
      · simp [findIndexByDate, he] at h ⊢
        simp [ih h]

/-! ### max-fold lemmas -/

theorem ite_lt_eq_max (a b : Rat) : (if a < b then b else a) = max a b := by
  by_cases h : a < b
  · rw [if_pos h]; exact (max_eq_right h.le).symm
  · rw [if_neg h]; exact (max_eq_left (not_lt.mp h)).symm

theorem le_foldl_max (l : List Rat) : ∀ b : Rat, b ≤ l.foldl max b := by
  induction l with
  | nil => intro b; simp
  | cons p rest ih => intro b; exact le_trans (le_max_left b p) (ih (max b p))

theorem foldl_max_le_of_mem (l : List Rat) : ∀ (b x : Rat), x ∈ l → x ≤ l.foldl max b := by
  induction l with
  | nil => intro b x hx; simp at hx
  | cons p rest ih =>
      intro b x hx
      rcases List.mem_cons.mp hx with h | h
      · subst h
        exact le_trans (le_max_right b x) (le_foldl_max rest (max b x))
      · exact ih (max b p) x h

theorem foldl_max_eq_or_mem (l : List Rat) : ∀ b : Rat, l.foldl max b = b ∨ l.foldl max b ∈ l := by
  induction l with
  | nil => intro b; simp
  | cons p rest ih =>
      intro b
      simp only [List.foldl_cons]
      rcases ih (max b p) with h | h
      · rcases max_choice b p with hm | hm
        · left; rw [h, hm]
        · right; rw [h, hm]; simp
      · exact Or.inr (List.mem_cons_of_mem p h)

theorem foldl_max_assoc (l : List Rat) : ∀ b c : Rat, l.foldl max (max b c) = max b (l.foldl max c) := by
  induction l with
  | nil => intro b c; rfl
  | cons p rest ih =>
      intro b c
      show rest.foldl max (max (max b c) p) = max b (rest.foldl max (max c p))
      rw [max_assoc, ih]

theorem foldl_max_all_zero (l : List Rat) (h : ∀ x ∈ l, x = 0) : l.foldl max 0 = 0 := by
  rcases foldl_max_eq_or_mem l 0 with h0 | h0
  · exact h0
  · exact h _ h0

/-! ### stats reducer lemmas -/

theorem statsStep_total (a : StatsAcc) (e : SolarEntry) :
    (statsStep a e).total = a.total + e.production := by
  simp only [statsStep]
  split <;> split <;> rfl

theorem statsStep_days (a : StatsAcc) (e : SolarEntry) :
    (statsStep a e).daysWithProduction =
      a.daysWithProduction + (if 0 < e.production then 1 else 0) := by
  simp only [statsStep]
  split <;> split <;> simp_all

theorem statsStep_max (a : StatsAcc) (e : SolarEntry) :
    (statsStep a e).maxProduction = max a.maxProduction e.production := by
  simp only [statsStep]
  split <;> split <;> simp_all [max_eq_right, max_eq_left, le_of_lt, le_of_not_lt]

theorem statsStep_maxDay (a : StatsAcc) (e : SolarEntry) :
    (statsStep a e).maxProductionDay =
      if a.maxProduction < e.production then some e else a.maxProductionDay := by
  simp only [statsStep]
  split <;> split <;> simp_all

theorem foldl_statsStep_total (l : List SolarEntry) : ∀ a : StatsAcc,
    (l.foldl statsStep a).total = a.total + (l.map (fun e => e.production)).sum := by
  induction l with
  | nil => intro a; simp
  | cons e rest ih =>
      intro a
      show (rest.foldl statsStep (statsStep a e)).total = _
      rw [ih, statsStep_total]
      simp [add_assoc]

theorem foldl_statsStep_days (l : List SolarEntry) : ∀ a : StatsAcc,
    (l.foldl statsStep a).daysWithProduction =
      a.daysWithProduction + l.countP (fun e => decide (0 < e.production)) := by
  induction l with
  | nil => intro a; simp
  | cons e rest ih =>
      intro a
      show (rest.foldl statsStep (statsStep a e)).daysWithProduction = _
      rw [ih, statsStep_days, List.countP_cons]
      by_cases h : 0 < e.production
      · simp [h]; omega
      · simp [h]

theorem foldl_statsStep_max (l : List SolarEntry) : ∀ a : StatsAcc,
    (l.foldl statsStep a).maxProduction =
      (l.map (fun e => e.production)).foldl max a.maxProduction := by
  induction l with
  | nil => intro a; rfl
  | cons e rest ih =>
      intro a
      show (rest.foldl statsStep (statsStep a e)).maxProduction = _
      rw [ih, statsStep_max]
      rfl

theorem foldl_statsStep_maxDay (l : List SolarEntry) : ∀ a : StatsAcc,
    (l.foldl statsStep a).maxProductionDay =
      if a.maxProduction < (l.map (fun x => x.production)).foldl max a.maxProduction then
        l.find? (fun x =>
          decide (x.production = (l.map (fun x => x.production)).foldl max a.maxProduction))
      else a.maxProductionDay := by
  induction l with
  | nil => intro a; simp
  | cons e rest ih =>
      intro a
      simp only [List.map_cons, List.foldl_cons]
      rw [ih (statsStep a e), statsStep_max, statsStep_maxDay]
      by_cases hp : a.maxProduction < e.production
      · simp only [max_eq_right hp.le]
        have hc : a.maxProduction < (rest.map (fun x => x.production)).foldl max e.production :=
          lt_of_lt_of_le hp (le_foldl_max _ _)
        rw [if_pos hc]
        by_cases heq :
            e.production = (rest.map (fun x => x.production)).foldl max e.production
        · rw [List.find?_cons_of_pos _ (by simp [← heq])]
          rw [if_neg (by rw [← heq]; exact lt_irrefl _), if_pos hp]
        · have hlt : e.production < (rest.map (fun x => x.production)).foldl max e.production :=
            lt_of_le_of_ne (le_foldl_max _ _) heq
          rw [if_pos hlt, List.find?_cons_of_neg _ (by simp [heq])]
      · simp only [max_eq_left (not_lt.mp hp)]
        by_cases hc :
            a.maxProduction < (rest.map (fun x => x.production)).foldl max a.maxProduction
        · rw [if_pos hc, if_pos hc]
          have hne : e.production ≠ (rest.map (fun x => x.production)).foldl max a.maxProduction :=
            ne_of_lt (lt_of_le_of_lt (not_lt.mp hp) hc)
          rw [List.find?_cons_of_neg _ (by simp [hne])]
        · rw [if_neg hc, if_neg hc, if_neg hp]

/-! ### scan lemmas for the chart and worker folds -/

theorem foldl_scan_max (l : List SolarEntry) : ∀ b : Rat,
    l.foldl (fun mx e => if mx < e.production then e.production else mx) b =
      (l.map (fun e => e.production)).foldl max b := by
  induction l with
  | nil => intro b; rfl
  | cons e rest ih =>
      intro b
      simp only [List.foldl_cons, List.map_cons]
      rw [ih, ite_lt_eq_max]

theorem foldl_worker_max (l : List SolarEntry) : ∀ b : Rat,
    l.foldl (fun a e => max a e.production) b =
      (l.map (fun e => e.production)).foldl max b := by
  induction l with
  | nil => intro b; rfl
  | cons e rest ih => intro b; simp only [List.foldl_cons, List.map_cons, ih]

theorem maxscan_step_fst (c : Rat × Option SolarEntry) (e : SolarEntry) :
    (if c.1 < e.production then (e.production, some e) else c).1 = max c.1 e.production := by
  by_cases h : c.1 < e.production
  · rw [if_pos h]; exact (max_eq_right h.le).symm
  · rw [if_neg h]; exact (max_eq_left (not_lt.mp h)).symm

theorem maxscan_step_snd (c : Rat × Option SolarEntry) (e : SolarEntry) :
    (if c.1 < e.production then (e.production, some e) else c).2 =
      if c.1 < e.production then some e else c.2 := by
  by_cases h : c.1 < e.production <;> simp [h]

theorem foldl_maxscan_fst (l : List SolarEntry) : ∀ c : Rat × Option SolarEntry,
    (l.foldl (fun acc e => if acc.1 < e.production then (e.production, some e) else acc) c).1 =
      (l.map (fun e => e.production)).foldl max c.1 := by
  induction l with
  | nil => intro c; rfl
  | cons e rest ih =>
      intro c
      simp only [List.foldl_cons, List.map_cons]
      rw [ih, maxscan_step_fst]

theorem foldl_maxscan_snd (l : List SolarEntry) : ∀ c : Rat × Option SolarEntry,
    (l.foldl (fun acc e => if acc.1 < e.production then (e.production, some e) else acc) c).2 =
      if c.1 < (l.map (fun x => x.production)).foldl max c.1 then
        l.find? (fun x =>
          decide (x.production = (l.map (fun x => x.production)).foldl max c.1))
      else c.2 := by
  induction l with
  | nil => intro c; simp
  | cons e rest ih =>
      intro c
      simp only [List.map_cons, List.foldl_cons]
      rw [ih, maxscan_step_fst, maxscan_step_snd]
      by_cases hp : c.1 < e.production
      · simp only [max_eq_right hp.le]
        have hc : c.1 < (rest.map (fun x => x.production)).foldl max e.production :=
          lt_of_lt_of_le hp (le_foldl_max _ _)
        rw [if_pos hc]
        by_cases heq :
            e.production = (rest.map (fun x => x.production)).foldl max e.production
        · rw [List.find?_cons_of_pos _ (by simp [← heq])]
          rw [if_neg (by rw [← heq]; exact lt_irrefl _), if_pos hp]
        · have hlt : e.production < (rest.map (fun x => x.production)).foldl max e.production :=
            lt_of_le_of_ne (le_foldl_max _ _) heq
          rw [if_pos hlt, List.find?_cons_of_neg _ (by simp [heq])]
      · simp only [max_eq_left (not_lt.mp hp)]
        by_cases hc :
            c.1 < (rest.map (fun x => x.production)).foldl max c.1
        · rw [if_pos hc, if_pos hc]
          have hne : e.production ≠ (rest.map (fun x => x.production)).foldl max c.1 :=
            ne_of_lt (lt_of_le_of_lt (not_lt.mp hp) hc)
          rw [List.find?_cons_of_neg _ (by simp [hne])]
        · rw [if_neg hc, if_neg hc, if_neg hp]

/-! ### week materialization lemmas -/

theorem materializeDay_date (s : TrackerState) (d : Int) (f : Nat) :
    (materializeDay s d f).1.date = some d := by
  cases hq : listMapGet d s.pendingUpdates <;>
    cases he : listMapGet (some d) s.entriesMap <;>
      simp [materializeDay, hq, he]

theorem materializeDay_production (s : TrackerState) (d : Int) (f : Nat) :
    (materializeDay s d f).1.production = mergedProduction s d := by
  cases hq : listMapGet d s.pendingUpdates <;>
    cases he : listMapGet (some d) s.entriesMap <;>
      simp [materializeDay, mergedProduction, hq, he]

theorem materializeFrom_length (s : TrackerState) : ∀ (ds : List Int) (f : Nat),
    ((materializeFrom s ds f).1).length = ds.length := by
  intro ds
  induction ds with
  | nil => intro f; rfl
  | cons d rest ih => intro f; simp [materializeFrom, ih]

theorem materializeFrom_get?_date (s : TrackerState) : ∀ (ds : List Int) (f : Nat) (i : Nat),
    (((materializeFrom s ds f).1).get? i).map (fun e => e.date) = (ds.get? i).map some := by
  intro ds
  induction ds with
  | nil => intro f i; simp [materializeFrom]
  | cons d rest ih =>
      intro f i
      cases i with
      | zero => simp [materializeFrom, materializeDay_date]
      | succ n => simpa [materializeFrom] using ih (materializeDay s d f).2 n

theorem materializeFrom_get?_production (s : TrackerState) : ∀ (ds : List Int) (f : Nat) (i : Nat),
    (((materializeFrom s ds f).1).get? i).map (fun e => e.production) =
      (ds.get? i).map (mergedProduction s) := by
  intro ds
  induction ds with
  | nil => intro f i; simp [materializeFrom]
  | cons d rest ih =>
      intro f i
      cases i with
      | zero => simp [materializeFrom, materializeDay_production]
      | succ n => simpa [materializeFrom] using ih (materializeDay s d f).2 n

theorem weekDays_get? (ws : Int) (i : Nat) (h : i < 7) :
    (weekDays ws).get? i = some (ws + i) := by
  interval_cases i <;> norm_num [weekDays]

/-! ### updateEntry shape lemmas -/

theorem updateEntry_invalid (s : TrackerState) (d : Int) (p : Rat)
    (h : p < 0 ∨ 100 < p) : updateEntry d p s = s := by
  rcases h with h | h
  · simp [updateEntry, h]
  · have h0 : ¬ p < 0 := not_lt.mpr (le_trans (by norm_num) h.le)
    simp [updateEntry, h0, h]

theorem updateEntry_eq_existing (s : TrackerState) (d : Int) (p : Rat) (i : Nat) (x : SolarEntry)
    (h0 : ¬ p < 0) (h1 : ¬ 100 < p)
    (hf : findIndexByDate d s.entries = some i) (hx : s.entries.get? i = some x) :
    updateEntry d p s =
      { s with entries := setProductionAt p s.entries i,
               entriesMap := listMapSet (some d) { x with production := p } s.entriesMap,
               pendingUpdates := listMapDel d s.pendingUpdates,
               weeklyCache := none } := by
  simp only [updateEntry, if_neg h0, if_neg h1, hf]
  rw [setProductionAt_get?_self p s.entries i x hx]
  simp [listMapDel_set_self]

theorem updateEntry_eq_new (s : TrackerState) (d : Int) (p : Rat)
    (h0 : ¬ p < 0) (h1 : ¬ 100 < p)
    (hf : findIndexByDate d s.entries = none) :
    updateEntry d p s =
      { s with entries := s.entries ++ [{ date := some d, production := p, id := s.nextId }],
               entriesMap :=
                 listMapSet (some d) { date := some d, production := p, id := s.nextId }
                   s.entriesMap,
               pendingUpdates := listMapDel d s.pendingUpdates,
               weeklyCache := none,
               nextId := s.nextId + 1 } := by
  simp only [updateEntry, if_neg h0, if_neg h1, hf]
  simp [listMapDel_set_self]

theorem mergedProduction_updateEntry_self (s : TrackerState) (d : Int) (p : Rat)
    (h0 : 0 ≤ p) (h1 : p ≤ 100) :
    mergedProduction (updateEntry d p s) d = p := by
  have h0' : ¬ p < 0 := not_lt.mpr h0
  have h1' : ¬ 100 < p := not_lt.mpr h1
  cases hf : findIndexByDate d s.entries with
  | none =>
      rw [updateEntry_eq_new s d p h0' h1' hf]
      simp [mergedProduction, listMapGet_del_self, listMapGet_set_self]
  | some i =>
      obtain ⟨x, hx, hxd⟩ := findIndexByDate_get d s.entries i hf
      rw [updateEntry_eq_existing s d p i x h0' h1' hf hx]
      simp [mergedProduction, listMapGet_del_self, listMapGet_set_self]

/-! ### bulk-load processing lemmas -/

theorem processRaw_length : ∀ (raw : List RawEntry) (f : Nat),
    ((processRaw f raw).1).length = raw.length := by
  intro raw
  induction raw with
  | nil => intro f; rfl
  | cons r rest ih => intro f; simp [processRaw, ih]

theorem processRaw_map_date : ∀ (raw : List RawEntry) (f : Nat),
    ((processRaw f raw).1).map (fun e => e.date) = raw.map (fun r => r.date) := by
  intro raw
  induction raw with
  | nil => intro f; rfl
  | cons r rest ih => intro f; simp [processRaw, ih]

theorem processRaw_map_production : ∀ (raw : List RawEntry) (f : Nat),
    ((processRaw f raw).1).map (fun e => e.production) = raw.map (fun r => r.production) := by
  intro raw
  induction raw with
  | nil => intro f; rfl
  | cons r rest ih => intro f; simp [processRaw, ih]

theorem foldl_mapSet_not_mem (l : List SolarEntry) :
    ∀ (m : List (Option Int × SolarEntry)) (k : Option Int),
    (∀ e ∈ l, e.date ≠ k) →
    listMapGet k (l.foldl (fun m e => listMapSet e.date e m) m) = listMapGet k m := by
  induction l with
  | nil => intro m k _; rfl
  | cons e rest ih =>
      intro m k hk
      simp only [List.foldl_cons]
      rw [ih _ k (fun x hx => hk x (List.mem_cons_of_mem e hx)),
        listMapGet_set_ne _ _ _ _ (Ne.symm (hk e (by simp)))]

theorem foldl_mapSet_isSome (l : List SolarEntry) :
    ∀ (m : List (Option Int × SolarEntry)) (k : Option Int),
    (listMapGet k m).isSome = true →
    (listMapGet k (l.foldl (fun m e => listMapSet e.date e m) m)).isSome = true := by
  induction l with
  | nil => intro m k h; exact h
  | cons e rest ih =>
      intro m k h
      simp only [List.foldl_cons]
      exact ih _ k (isSome_listMapGet_set _ _ _ _ h)

theorem foldl_mapSet_mem_isSome (l : List SolarEntry) :
    ∀ (m : List (Option Int × SolarEntry)) (e : SolarEntry), e ∈ l →
    (listMapGet e.date (l.foldl (fun m e => listMapSet e.date e m) m)).isSome = true := by
  induction l with
  | nil => intro m e he; simp at he
  | cons x rest ih =>
      intro m e he
      simp only [List.foldl_cons]
      rcases List.mem_cons.mp he with rfl | he
      · exact foldl_mapSet_isSome rest _ _ (by simp [listMapGet_set_self])
      · exact ih _ e he

theorem foldl_mapSet_last (l : List SolarEntry) :
    ∀ (m : List (Option Int × SolarEntry)) (k : Option Int) (e : SolarEntry),
    l.reverse.find? (fun x => decide (x.date = k)) = some e →
    listMapGet k (l.foldl (fun m x => listMapSet x.date x m) m) = some e := by
  induction l with
  | nil => intro m k e he; simp at he
  | cons x rest ih =>
      intro m k e he
      rw [List.reverse_cons, List.find?_append] at he
      simp only [List.foldl_cons]
      cases hr : rest.reverse.find? (fun x => decide (x.date = k)) with
      | some e' =>
          rw [hr] at he
          simp only [Option.or_some] at he
          obtain rfl : e' = e := by injection he
          exact ih _ k _ hr
      | none =>
          rw [hr] at he
          simp only [Option.none_or] at he
          have hx : x.date = k ∧ x = e := by
            by_cases hd : x.date = k
            · refine ⟨hd, ?_⟩
              rw [List.find?_cons_of_pos _ (by simp [hd])] at he
              injection he
            · rw [List.find?_cons_of_neg _ (by simp [hd])] at he
              simp at he
          have hrest : ∀ y ∈ rest, y.date ≠ k := by
            intro y hy
            have := List.find?_eq_none.mp hr y (List.mem_reverse.mpr hy)
            simpa using this
          rw [foldl_mapSet_not_mem rest _ k hrest, ← hx.1, listMapGet_set_self]
          rw [hx.2]

theorem find?_date_transfer :
    ∀ (l₁ : List RawEntry) (l₂ : List SolarEntry),
      l₂.map (fun e => e.date) = l₁.map (fun r => r.date) →
      l₂.map (fun e => e.production) = l₁.map (fun r => r.production) →
      ∀ (k : Option Int) (r : RawEntry),
        l₁.find? (fun r => decide (r.date = k)) = some r →
        ∃ e, l₂.find? (fun e => decide (e.date = k)) = some e ∧
          e.date = r.date ∧ e.production = r.production := by
  intro l₁
  induction l₁ with
  | nil => intro l₂ h1 h2 k r hr; simp at hr
  | cons r0 rest ih =>
      intro l₂ h1 h2 k r hr
      cases l₂ with
      | nil => simp at h1
      | cons e0 el =>
          simp only [List.map_cons, List.cons.injEq] at h1 h2
          by_cases hk : r0.date = k
          · rw [List.find?_cons_of_pos _ (by simp [hk])] at hr
            obtain rfl : r0 = r := by injection hr
            exact ⟨e0, List.find?_cons_of_pos _ (by simp [h1.1, hk]),
              by simp [h1.1], by simp [h2.1]⟩
          · rw [List.find?_cons_of_neg _ (by simp [hk])] at hr
            obtain ⟨e, he, hed, hep⟩ := ih el h1.2 h2.2 k r hr
            exact ⟨e, by rw [List.find?_cons_of_neg _ (by simp [h1.1, hk])]; exact he, hed, hep⟩

/-! ### onSubmit replacement-map lemmas -/

theorem map_replaceProd_date (l : List SolarEntry) (d : Int) (p : Rat) :
    (l.map (fun e => if e.date = some d then { e with production := p } else e)).map
        (fun e => e.date) =
      l.map (fun e => e.date) := by
  induction l with
  | nil => rfl
  | cons e rest ih =>
      by_cases he : e.date = some d <;> simp [he, ih]

theorem mem_map_replaceProd (l : List SolarEntry) (d : Int) (p : Rat) (y : SolarEntry)
    (hy : y ∈ l.map (fun e => if e.date = some d then { e with production := p } else e)) :
    ∃ x ∈ l, y = x ∨ y = { x with production := p } := by
  obtain ⟨x, hx, hxy⟩ := List.mem_map.mp hy
  by_cases he : x.date = some d
  · exact ⟨x, hx, Or.inr (by rw [← hxy, if_pos he])⟩
  · exact ⟨x, hx, Or.inl (by rw [← hxy, if_neg he])⟩

/-! ### state-preservation of the week materialization -/

theorem getWeek_preserves (s : TrackerState) :
    (getCurrentWeekEntries s).2.entries = s.entries ∧
    (getCurrentWeekEntries s).2.entriesMap = s.entriesMap ∧
    (getCurrentWeekEntries s).2.pendingUpdates = s.pendingUpdates ∧
    (getCurrentWeekEntries s).2.anchor = s.anchor := by
  cases ha : s.anchor with
  | none => simp [getCurrentWeekEntries, ha]
  | some a =>
      cases hc : s.weeklyCache with
      | none => simp [getCurrentWeekEntries, computeWeek, ha, hc]
      | some ces =>
          obtain ⟨c, es⟩ := ces
          by_cases hcw : c = weekStart a <;>
            simp [getCurrentWeekEntries, computeWeek, ha, hc, hcw]

/-! ### StoreInv preservation -/

theorem storeInv_init : StoreInv initState := by
  refine ⟨?_, ?_, ?_⟩ <;> simp [initState, StoreInv]

theorem storeInv_setAnchor (today a : Int) (s : TrackerState) (h : StoreInv s) :
    StoreInv (setAnchor today a s) := by
  unfold setAnchor
  by_cases ht : today < a <;> simp [ht] <;> exact h

theorem storeInv_updateEntry (s : TrackerState) (d : Int) (p : Rat) (h : StoreInv s) :
    StoreInv (updateEntry d p s) := by
  obtain ⟨hb, hn, hm⟩ := h
  by_cases hv : p < 0 ∨ 100 < p
  · rw [updateEntry_invalid s d p hv]; exact ⟨hb, hn, hm⟩
  push_neg at hv
  obtain ⟨h0, h1⟩ := hv
  have h0' : ¬ p < 0 := not_lt.mpr h0
  have h1' : ¬ 100 < p := not_lt.mpr h1
  cases hf : findIndexByDate d s.entries with
  | some i =>
      obtain ⟨x, hx, hxd⟩ := findIndexByDate_get d s.entries i hf
      rw [updateEntry_eq_existing s d p i x h0' h1' hf hx]
      refine ⟨?_, ?_, ?_⟩
      · intro e he
        rcases setProductionAt_mem p s.entries i e he with he' | ⟨x', _, hxx⟩
        · exact hb e he'
        · rw [hxx]; exact ⟨h0, h1⟩
      · show ((setProductionAt p s.entries i).map (fun e => e.date)).Nodup
        rw [setProductionAt_map_date]; exact hn
      · intro e he
        rcases setProductionAt_mem p s.entries i e he with he' | ⟨x', hx', hxx⟩
        · exact isSome_listMapGet_set _ _ _ _ (hm e he')
        · rw [hxx]
          show (listMapGet x'.date _).isSome = true
          exact isSome_listMapGet_set _ _ _ _ (hm x' hx')
  | none =>
      rw [updateEntry_eq_new s d p h0' h1' hf]
      have hnotin : ∀ e ∈ s.entries, e.date ≠ some d := (findIndexByDate_none_iff d _).mp hf
      refine ⟨?_, ?_, ?_⟩
      · intro e he
        rcases List.mem_append.mp he with he' | he'
        · exact hb e he'
        · simp at he'
          rw [he']
          exact ⟨h0, h1⟩
      · show ((s.entries ++ _).map (fun e => e.date)).Nodup
        rw [List.map_append]
        rw [List.nodup_append]
        refine ⟨hn, by simp, ?_⟩
        intro dd hdd
        simp only [List.map_cons, List.map_nil, List.mem_singleton]
        intro hc
        obtain ⟨e, he, hde⟩ := List.mem_map.mp hdd
        rw [hc] at hde
        exact hnotin e he hde
      · intro e he
        rcases List.mem_append.mp he with he' | he'
        · exact isSome_listMapGet_set _ _ _ _ (hm e he')
        · simp at he'
          rw [he']
          simp [listMapGet_set_self]

theorem storeInv_onSubmit (s : TrackerState) (t : Int) (p : Rat)
    (h0 : 0 ≤ p) (h1 : p ≤ 100) (h : StoreInv s) : StoreInv (onSubmit t p s) := by
  obtain ⟨hb, hn, hm⟩ := h
  cases ha : s.anchor with
  | none => simpa [onSubmit, ha] using ⟨hb, hn, hm⟩
  | some d =>
      by_cases ht : t < d
      · simpa [onSubmit, ha, ht] using ⟨hb, hn, hm⟩
      cases hg : listMapGet (some d) s.entriesMap with
      | some x =>
          simp only [onSubmit, ha, if_neg ht, hg]
          refine ⟨?_, ?_, ?_⟩
          · intro e he
            rcases mem_map_replaceProd s.entries d p e he with ⟨x', hx', hxx | hxx⟩
            · rw [hxx]; exact hb x' hx'
            · rw [hxx]; exact ⟨h0, h1⟩
          · show ((s.entries.map
                (fun e => if e.date = some d then { e with production := p } else e)).map
                (fun e => e.date)).Nodup
            rw [map_replaceProd_date]; exact hn
          · intro e he
            exact foldl_mapSet_mem_isSome _ _ e he
      | none =>
          simp only [onSubmit, ha, if_neg ht, hg]
          refine ⟨?_, ?_, ?_⟩
          · intro e he
            rcases List.mem_append.mp he with he' | he'
            · exact hb e he'
            · simp at he'
              rw [he']
              exact ⟨h0, h1⟩
          · show ((s.entries ++ _).map (fun e => e.date)).Nodup
            rw [List.map_append, List.nodup_append]
            refine ⟨hn, by simp, ?_⟩
            intro dd hdd
            simp only [List.map_cons, List.map_nil, List.mem_singleton]
            intro hc
            obtain ⟨e, he, hde⟩ := List.mem_map.mp hdd
            have : (listMapGet e.date s.entriesMap).isSome = true := hm e he
            rw [hde, hc, hg] at this
            simp at this
          · intro e he
            exact foldl_mapSet_mem_isSome _ _ e he

theorem storeInv_getWeek (s : TrackerState) (h : StoreInv s) :
    StoreInv (getCurrentWeekEntries s).2 := by
  obtain ⟨he, hmap, -⟩ := getWeek_preserves s
  obtain ⟨hb, hn, hm⟩ := h
  refine ⟨?_, ?_, ?_⟩ <;> rw [he] <;> try rw [hmap]
  · exact hb
  · exact hn
  · exact hm

theorem storeInv_of_reachableNoLoad (s : TrackerState) (h : ReachableNoLoad s) : StoreInv s := by
  induction h with
  | init => exact storeInv_init
  | anchor today a h ih => exact storeInv_setAnchor today a _ ih
  | upsert d p h ih => exact storeInv_updateEntry _ d p ih
  | submit today p hp0 hp1 h ih => exact storeInv_onSubmit _ today p hp0 hp1 ih
  | week h ih => exact storeInv_getWeek _ ih

/-! ### debounced-save lemmas -/

theorem listMapGet_some_mem {K V : Type} [DecidableEq K] (k : K) (m : List (K × V)) (v : V)
    (h : listMapGet k m = some v) : (k, v) ∈ m := by
  induction m with
  | nil => simp [listMapGet] at h
  | cons kv rest ih =>
      obtain ⟨k0, v0⟩ := kv
      by_cases hk : k0 = k
      · subst hk
        simp [listMapGet] at h
        simp [h]
      · simp [listMapGet, hk] at h
        exact List.mem_cons_of_mem _ (ih h)

theorem saveInv_clear (s : SaveSys) (h : SaveInv s) :
    (clearScheduledSave s).timers = [] ∧ (clearScheduledSave s).nextTimer = s.nextTimer ∧
    (clearScheduledSave s).writes = s.writes := by
  obtain ⟨hlen, href⟩ := h
  cases hr : s.saveRef with
  | none =>
      have ht : s.timers = [] := by
        cases htm : s.timers with
        | nil => rfl
        | cons tr rest =>
            have := (href tr (by simp [htm])).1
            rw [hr] at this
            cases this
      simp [clearScheduledSave, hr, ht]
  | some i =>
      have hkeys : ∀ tr ∈ s.timers, tr.1 = i := by
        intro tr htr
        have := (href tr htr).1
        rw [hr] at this
        injection this with hh
        exact hh.symm
      simp [clearScheduledSave, hr, listMapDel_of_all_key i s.timers hkeys]

theorem scheduleSave_spec (t : Int) (snap : List SolarEntry) (s : SaveSys) (h : SaveInv s) :
    (scheduleSave t snap s).timers = [(s.nextTimer, t + saveDebounceMs, snap)] ∧
    (scheduleSave t snap s).nextTimer = s.nextTimer + 1 ∧
    (scheduleSave t snap s).saveRef = some s.nextTimer ∧
    (scheduleSave t snap s).writes = s.writes := by
  obtain ⟨ht, hn, hw⟩ := saveInv_clear s h
  unfold scheduleSave
  simp [ht, hn, hw]

theorem saveInv_schedule (t : Int) (snap : List SolarEntry) (s : SaveSys) (h : SaveInv s) :
    SaveInv (scheduleSave t snap s) := by
  obtain ⟨ht, hn, hr, hw⟩ := scheduleSave_spec t snap s h
  constructor
  · rw [ht]; simp
  · intro tr htr
    rw [ht] at htr
    simp at htr
    rw [hr, hn, htr]
    simp

theorem saveInv_fire (i : Nat) (s : SaveSys) (h : SaveInv s) : SaveInv (fireSave i s) := by
  obtain ⟨hlen, href⟩ := h
  cases hg : listMapGet i s.timers with
  | none => simpa [fireSave, hg] using ⟨hlen, href⟩
  | some v =>
      obtain ⟨ft, snap⟩ := v
      have hmem : (i, ft, snap) ∈ s.timers := listMapGet_some_mem i s.timers _ hg
      have hkeys : ∀ tr ∈ s.timers, tr.1 = i := by
        intro tr htr
        have h1 := (href tr htr).1
        have h2 := (href (i, ft, snap) hmem).1
        rw [h1] at h2
        injection h2
      constructor
      · simp [fireSave, hg, listMapDel_of_all_key i s.timers hkeys]
      · intro tr htr
        simp [fireSave, hg, listMapDel_of_all_key i s.timers hkeys] at htr

theorem saveInv_of_reachable (s : SaveSys) (h : SaveReachable s) : SaveInv s := by
  induction h with
  | init => exact ⟨by simp [initSaveSys], by simp [initSaveSys]⟩
  | mutate t snap h ih => exact saveInv_schedule t snap _ ih
  | fire i h ih => exact saveInv_fire i _ ih

/-! ### remaining operation-shape helpers -/

theorem updateEntry_anchor (s : TrackerState) (d : Int) (p : Rat) :
    (updateEntry d p s).anchor = s.anchor := by
  by_cases hv : p < 0 ∨ 100 < p
  · rw [updateEntry_invalid s d p hv]
  push_neg at hv
  have h0' : ¬ p < 0 := not_lt.mpr hv.1
  have h1' : ¬ 100 < p := not_lt.mpr hv.2
  cases hf : findIndexByDate d s.entries with
  | some i =>
      obtain ⟨x, hx, -⟩ := findIndexByDate_get d s.entries i hf
      rw [updateEntry_eq_existing s d p i x h0' h1' hf hx]
  | none => rw [updateEntry_eq_new s d p h0' h1' hf]

theorem updateEntry_cache_none (s : TrackerState) (d : Int) (p : Rat)
    (h0 : 0 ≤ p) (h1 : p ≤ 100) : (updateEntry d p s).weeklyCache = none := by
  have h0' : ¬ p < 0 := not_lt.mpr h0
  have h1' : ¬ 100 < p := not_lt.mpr h1
  cases hf : findIndexByDate d s.entries with
  | some i =>
      obtain ⟨x, hx, -⟩ := findIndexByDate_get d s.entries i hf
      rw [updateEntry_eq_existing s d p i x h0' h1' hf hx]
  | none => rw [updateEntry_eq_new s d p h0' h1' hf]

theorem getWeek_idempotent (s : TrackerState) :
    (getCurrentWeekEntries (getCurrentWeekEntries s).2).1 = (getCurrentWeekEntries s).1 ∧
    (getCurrentWeekEntries (getCurrentWeekEntries s).2).2 = (getCurrentWeekEntries s).2 := by
  cases ha : s.anchor with
  | none => simp [getCurrentWeekEntries, ha]
  | some a =>
      cases hc : s.weeklyCache with
      | none => constructor <;> simp [getCurrentWeekEntries, computeWeek, ha, hc]
      | some ces =>
          obtain ⟨c, es⟩ := ces
          by_cases hcw : c = weekStart a <;>
            constructor <;>
              simp [getCurrentWeekEntries, computeWeek, ha, hc, hcw]

theorem fireSave_miss (i : Nat) (s : SaveSys) (h : listMapGet i s.timers = none) :
    fireSave i s = s := by
  simp [fireSave, h]

/-- Claim C10: when the anchor date is not yet established (`null`),
`getCurrentWeekEntries` returns the empty sequence (leaving the state
untouched) rather than throwing or returning a partial week, and downstream
consumers see empty-input behaviour: all-zero weekly stats with the max day
absent, and the chart maxValue floor of 10 with no bars.  (The `catch`
fallbacks of the source are unreachable in this total embedding, so the
exception clause of the claim is vacuous here.) -/
theorem c10_null_anchor_empty (s : TrackerState) (h : s.anchor = none) :
    (getCurrentWeekEntries s).1 = [] ∧ (getCurrentWeekEntries s).2 = s ∧
    weeklyStats [] =
      { weeklyTotal := 0, dailyAverage := 0, maxProduction := 0, maxProductionDay := none } ∧
    calculateStats [] =
      { weeklyTotal := 0, dailyAverage := 0, maxProduction := 0, maxProductionDay := none } ∧
    solarChartMaxValue [] = 10 ∧ chartData [] = [] := by
  refine ⟨?_, ?_, ?_, ?_, ?_, ?_⟩ <;>
    simp [getCurrentWeekEntries, h, weeklyStats, calculateStats, solarChartMaxValue, chartData]

theorem c10_witness :
    (getCurrentWeekEntries initState).1 = [] ∧ (getCurrentWeekEntries initState).2 = initState ∧
    weeklyStats [] =
      { weeklyTotal := 0, dailyAverage := 0, maxProduction := 0, maxProductionDay := none } ∧
    calculateStats [] =
      { weeklyTotal := 0, dailyAverage := 0, maxProduction := 0, maxProductionDay := none } ∧
    solarChartMaxValue [] = 10 ∧ chartData [] = [] :=
  c10_null_anchor_empty initState rfl

/-- Claim C9: in the SolarChart projection, the bar computed for the i-th
input entry carries that entry's production; a bar with production ≤ 0 is
marked empty and gets the fixed floor height 4, and a bar with positive
production gets height max 5 (production / maxValue * 100), hence every
nonzero bar height is at least 5 percent. -/
theorem c9_bar_heights (entries : List SolarEntry) (i : Nat) (h : i < entries.length) :
    ∃ bar e, (chartData entries).get? i = some bar ∧ entries.get? i = some e ∧
      bar.production = e.production ∧
      bar.isEmpty = decide (e.production ≤ 0) ∧
      (e.production ≤ 0 → bar.heightPercentage = 4 ∧ bar.isEmpty = true) ∧
      (0 < e.production →
        bar.heightPercentage = max 5 (e.production / solarChartMaxValue entries * 100) ∧
        bar.isEmpty = false ∧ 5 ≤ bar.heightPercentage) := by
  have he : entries.get? i = some (entries.get ⟨i, h⟩) := List.get?_eq_get h
  refine
    ⟨{ key := (entries.get ⟨i, h⟩).date,
       index := i,
       dayOfMonth := toString (civilFromDays ((entries.get ⟨i, h⟩).date.getD 0)).2.2,
       formattedDate := formatEEEMMMd ((entries.get ⟨i, h⟩).date.getD 0),
       production := (entries.get ⟨i, h⟩).production,
       heightPercentage :=
         if (entries.get ⟨i, h⟩).production ≤ 0 then 4
         else max 5 ((entries.get ⟨i, h⟩).production / solarChartMaxValue entries * 100),
       isEmpty := decide ((entries.get ⟨i, h⟩).production ≤ 0) },
     entries.get ⟨i, h⟩, ?_, he, ?_, ?_, ?_, ?_⟩
  · show (chartData entries).get? i = some _
    unfold chartData
    rw [List.get?_map, List.get?_enum, he]
    rfl
  · rfl
  · rfl
  · intro hle
    constructor
    · show (if (entries.get ⟨i, h⟩).production ≤ 0 then (4 : Rat) else _) = 4
      rw [if_pos hle]
    · show decide ((entries.get ⟨i, h⟩).production ≤ 0) = true
      exact decide_eq_true hle
  · intro hpos
    have hnle : ¬ (entries.get ⟨i, h⟩).production ≤ 0 := not_le.mpr hpos
    refine ⟨?_, ?_, ?_⟩
    · show (if (entries.get ⟨i, h⟩).production ≤ 0 then (4 : Rat) else _) = _
      rw [if_neg hnle]
    · show decide ((entries.get ⟨i, h⟩).production ≤ 0) = false
      exact decide_eq_false hnle
    · show (5 : Rat) ≤ (if (entries.get ⟨i, h⟩).production ≤ 0 then (4 : Rat) else _)
      rw [if_neg hnle]
      exact le_max_left _ _

theorem c9_witness :
    0 < ([⟨some 0, 50, 7⟩] : List SolarEntry).length ∧
    (∃ bar e,
      (chartData [⟨some 0, 50, 7⟩]).get? 0 = some bar ∧
      ([⟨some 0, 50, 7⟩] : List SolarEntry).get? 0 = some e ∧
      bar.production = e.production ∧
      bar.isEmpty = decide (e.production ≤ 0) ∧
      (e.production ≤ 0 → bar.heightPercentage = 4 ∧ bar.isEmpty = true) ∧
      (0 < e.production →
        bar.heightPercentage = max 5 (e.production / solarChartMaxValue [⟨some 0, 50, 7⟩] * 100) ∧
        bar.isEmpty = false ∧ 5 ≤ bar.heightPercentage)) :=
  ⟨by norm_num, c9_bar_heights [⟨some 0, 50, 7⟩] 0 (by norm_num)⟩

theorem solarChartMaxValue_cons (e : SolarEntry) (rest : List SolarEntry) :
    solarChartMaxValue (e :: rest) =
      (if ((e :: rest).map (fun x => x.production)).foldl max 0 = 0 then 10
       else ((e :: rest).map (fun x => x.production)).foldl max 0) := by
  unfold solarChartMaxValue
  rw [foldl_scan_max]
  simp

/-- Claim C5 (amended): the SolarChart maxValue is 10 for the empty input
and for any all-zero input, and equals the maximum production as soon as
some entry is positive; the worker's `processChartData` agrees on nonempty
inputs but returns maxValue 0 (not 10) with an empty processed list for the
empty input; the SolarChart bars output for the empty input is empty. -/
theorem c5_chart_maxvalue :
    solarChartMaxValue [] = 10 ∧ chartData [] = [] ∧
    (processChartData []).maxValue = 0 ∧
    (processChartData []).processedEntries = [] ∧
    (∀ l : List SolarEntry, l ≠ [] → (∀ e ∈ l, e.production = 0) →
      solarChartMaxValue l = 10 ∧ (processChartData l).maxValue = 10) ∧
    (∀ (l : List SolarEntry) (e : SolarEntry), e ∈ l → 0 < e.production →
      solarChartMaxValue l = (l.map (fun x => x.production)).foldl max 0 ∧
      (processChartData l).maxValue = (l.map (fun x => x.production)).foldl max 0 ∧
      (∀ x ∈ l, x.production ≤ (l.map (fun x => x.production)).foldl max 0) ∧
      (∃ x ∈ l, x.production = (l.map (fun x => x.production)).foldl max 0)) := by
  refine ⟨rfl, rfl, rfl, rfl, ?_, ?_⟩
  · intro l hne hz
    cases l with
    | nil => exact absurd rfl hne
    | cons e rest =>
        have hz' : ∀ q ∈ (e :: rest).map (fun x => x.production), q = 0 := by
          intro q hq
          obtain ⟨x, hx, hxq⟩ := List.mem_map.mp hq
          rw [← hxq]; exact hz x hx
        have hM : ((e :: rest).map (fun x => x.production)).foldl max 0 = 0 :=
          foldl_max_all_zero _ hz'
        constructor
        · rw [solarChartMaxValue_cons, if_pos hM]
        · show (if rest.foldl (fun a b => max a b.production) e.production = 0 then (10 : Rat)
              else rest.foldl (fun a b => max a b.production) e.production) = 10
          have hme : rest.foldl (fun a b => max a b.production) e.production
              = (rest.map (fun x => x.production)).foldl max 0 := by
            rw [foldl_worker_max, hz e (by simp)]
          have : rest.foldl (fun a b => max a b.production) e.production = 0 := by
            rw [hme]
            exact foldl_max_all_zero _ (fun q hq => hz' q (by simp [hq]))
          rw [if_pos this]
  · intro l e he hpos
    have hpm : e.production ∈ l.map (fun x => x.production) :=
      List.mem_map.mpr ⟨e, he, rfl⟩
    have hple : e.production ≤ (l.map (fun x => x.production)).foldl max 0 :=
      foldl_max_le_of_mem _ 0 _ hpm
    have hMpos : 0 < (l.map (fun x => x.production)).foldl max 0 := lt_of_lt_of_le hpos hple
    have hMne : (l.map (fun x => x.production)).foldl max 0 ≠ 0 := ne_of_gt hMpos
    refine ⟨?_, ?_, ?_, ?_⟩
    · cases l with
      | nil => simp at he
      | cons x rest => rw [solarChartMaxValue_cons, if_neg hMne]
    · cases l with
      | nil => simp at he
      | cons x rest =>
          show (if rest.foldl (fun a b => max a b.production) x.production = 0 then (10 : Rat)
              else rest.foldl (fun a b => max a b.production) x.production) = _
          have hm : rest.foldl (fun a b => max a b.production) x.production
              = (rest.map (fun y => y.production)).foldl max x.production :=
            foldl_worker_max rest x.production
          have hM0 : ((x :: rest).map (fun y => y.production)).foldl max 0
              = max 0 ((rest.map (fun y => y.production)).foldl max x.production) := by
            show ((rest.map (fun y => y.production)).foldl max (max 0 x.production)) = _
            exact foldl_max_assoc _ 0 x.production
          have hmpos : 0 < (rest.map (fun y => y.production)).foldl max x.production := by
            by_contra hc
            push_neg at hc
            have : ((x :: rest).map (fun y => y.production)).foldl max 0 = 0 := by
              rw [hM0, max_eq_left hc]
            exact hMne this
          have hMM : ((x :: rest).map (fun y => y.production)).foldl max 0
              = (rest.map (fun y => y.production)).foldl max x.production := by
            rw [hM0, max_eq_right hmpos.le]
          rw [hm, hMM, if_neg (ne_of_gt hmpos)]
    · intro x hx
      exact foldl_max_le_of_mem _ 0 _ (List.mem_map.mpr ⟨x, hx, rfl⟩)
    · rcases foldl_max_eq_or_mem (l.map (fun x => x.production)) 0 with h0 | hmem
      · exact absurd h0 hMne
      · obtain ⟨x, hx, hxq⟩ := List.mem_map.mp hmem
        exact ⟨x, hx, hxq⟩

/-- Counterexample to claim C5 as stated: the worker chart projection
`processChartData` returns maxValue 0, not the floor 10, on the empty
sequence. -/
theorem c5_counterexample :
    (processChartData []).maxValue = 0 ∧ ¬ (processChartData []).maxValue = 10 := by
  constructor
  · rfl
  · intro h
    have : (0 : Rat) = 10 := by rw [← h]; rfl
    norm_num at this

theorem c5_witness :
    (solarChartMaxValue [⟨some 0, 0, 1⟩] = 10 ∧
      (processChartData [⟨some 0, 0, 1⟩]).maxValue = 10) ∧
    (solarChartMaxValue [⟨some 0, 50, 1⟩] =
        (([⟨some 0, 50, 1⟩] : List SolarEntry).map (fun x => x.production)).foldl max 0 ∧
      (processChartData [⟨some 0, 50, 1⟩]).maxValue =
        (([⟨some 0, 50, 1⟩] : List SolarEntry).map (fun x => x.production)).foldl max 0 ∧
      (∀ x ∈ ([⟨some 0, 50, 1⟩] : List SolarEntry),
        x.production ≤ (([⟨some 0, 50, 1⟩] : List SolarEntry).map (fun x => x.production)).foldl max 0) ∧
      (∃ x ∈ ([⟨some 0, 50, 1⟩] : List SolarEntry),
        x.production = (([⟨some 0, 50, 1⟩] : List SolarEntry).map (fun x => x.production)).foldl max 0)) :=
  ⟨c5_chart_maxvalue.2.2.2.2.1 [⟨some 0, 0, 1⟩] (by simp) (by simp),
   c5_chart_maxvalue.2.2.2.2.2 [⟨some 0, 50, 1⟩] ⟨some 0, 50, 1⟩ (by simp) (by norm_num)⟩

/-- Claim C6: upserting (d, x) with an in-range value and then looking d up
in the entries map yields an entry whose production is x and whose date is
d; if an entry for d already existed (at the first matching list index) the
id is preserved, while a first upsert uses the fresh id `nextId` (distinct
from every existing id when ids are below the supply); and a second upsert
of the same date preserves the id the first one produced. -/
theorem c6_upsert_then_get (s : TrackerState) (d : Int) (p : Rat)
    (h0 : 0 ≤ p) (h1 : p ≤ 100) (hid : ∀ x ∈ s.entries, x.id < s.nextId) :
    ∃ e, listMapGet (some d) (updateEntry d p s).entriesMap = some e ∧
      e.production = p ∧ e.date = some d ∧
      (∀ i x, findIndexByDate d s.entries = some i → s.entries.get? i = some x →
        e.id = x.id) ∧
      (findIndexByDate d s.entries = none →
        e.id = s.nextId ∧ ∀ x ∈ s.entries, x.id ≠ e.id) ∧
      (∀ q : Rat, 0 ≤ q → q ≤ 100 →
        (listMapGet (some d) (updateEntry d q (updateEntry d p s)).entriesMap).map
          (fun y => y.id) = some e.id) := by
  have h0' : ¬ p < 0 := not_lt.mpr h0
  have h1' : ¬ 100 < p := not_lt.mpr h1
  cases hf : findIndexByDate d s.entries with
  | some i =>
      obtain ⟨x, hx, hxd⟩ := findIndexByDate_get d s.entries i hf
      rw [updateEntry_eq_existing s d p i x h0' h1' hf hx]
      refine ⟨{ x with production := p }, ?_, rfl, hxd, ?_, ?_, ?_⟩
      · exact listMapGet_set_self _ _ _
      · intro i' x' hf' hx'
        injection hf' with hi
        rw [← hi] at hx'
        rw [hx] at hx'
        injection hx' with hxx
        rw [← hxx]
      · intro hnone
        simp at hnone
      · intro q hq0 hq1
        have hq0' : ¬ q < 0 := not_lt.mpr hq0
        have hq1' : ¬ 100 < q := not_lt.mpr hq1
        have hf2 : findIndexByDate d (setProductionAt p s.entries i) = some i := by
          rw [findIndexByDate_setProductionAt, hf]
        have hx2 : (setProductionAt p s.entries i).get? i = some { x with production := p } :=
          setProductionAt_get?_self p s.entries i x hx
        rw [updateEntry_eq_existing _ d q i { x with production := p } hq0' hq1' hf2 hx2]
        rw [listMapGet_set_self]
        rfl
  | none =>
      rw [updateEntry_eq_new s d p h0' h1' hf]
      refine ⟨{ date := some d, production := p, id := s.nextId }, ?_, rfl, rfl, ?_, ?_, ?_⟩
      · exact listMapGet_set_self _ _ _
      · intro i' x' hf' hx'
        simp at hf'
      · intro _
        exact ⟨rfl, fun x hx => Nat.ne_of_lt (hid x hx)⟩
      · intro q hq0 hq1
        have hq0' : ¬ q < 0 := not_lt.mpr hq0
        have hq1' : ¬ 100 < q := not_lt.mpr hq1
        have hf2 : findIndexByDate d
            (s.entries ++ [{ date := some d, production := p, id := s.nextId }]) =
            some s.entries.length :=
          findIndexByDate_append_of_none d s.entries _ hf rfl
        have hx2 : (s.entries ++
              [({ date := some d, production := p, id := s.nextId } : SolarEntry)]).get?
            s.entries.length =
            some ({ date := some d, production := p, id := s.nextId } : SolarEntry) :=
          List.get?_concat_length _ _
        rw [updateEntry_eq_existing _ d q s.entries.length
          { date := some d, production := p, id := s.nextId } hq0' hq1' hf2 hx2]
        rw [listMapGet_set_self]
        rfl

theorem c6_witness :
    (0 : Rat) ≤ 5 ∧ (5 : Rat) ≤ 100 ∧
    (∃ e, listMapGet (some 0) (updateEntry 0 5 initState).entriesMap = some e ∧
      e.production = 5 ∧ e.date = some 0 ∧
      (∀ i x, findIndexByDate 0 initState.entries = some i →
        initState.entries.get? i = some x → e.id = x.id) ∧
      (findIndexByDate 0 initState.entries = none →
        e.id = initState.nextId ∧ ∀ x ∈ initState.entries, x.id ≠ e.id) ∧
      (∀ q : Rat, 0 ≤ q → q ≤ 100 →
        (listMapGet (some 0) (updateEntry 0 q (updateEntry 0 5 initState)).entriesMap).map
          (fun y => y.id) = some e.id)) :=
  ⟨by norm_num, by norm_num,
    c6_upsert_then_get initState 0 5 (by norm_num) (by norm_num) (by simp [initState])⟩

/-- Claim C7: materializing the same anchor's week twice without an
intervening mutation returns the identical (cached) result and leaves the
state untouched (no recomputation, no fresh ids); a valid upsert — which is
also the only operation that mutates the pending overlay — and an accepted
form submission both clear the single-slot week cache unconditionally; and a
materialization right after an upsert reflects the new value in the
corresponding day slot. -/
theorem c7_week_cache (s : TrackerState) (d a : Int) (p : Rat)
    (h0 : 0 ≤ p) (h1 : p ≤ 100) (ha : s.anchor = some a)
    (hd1 : weekStart a ≤ d) (hd2 : d ≤ weekStart a + 6) :
    ((getCurrentWeekEntries (getCurrentWeekEntries s).2).1 = (getCurrentWeekEntries s).1 ∧
     (getCurrentWeekEntries (getCurrentWeekEntries s).2).2 = (getCurrentWeekEntries s).2) ∧
    (updateEntry d p s).weeklyCache = none ∧
    (∀ today : Int, a ≤ today → (onSubmit today p s).weeklyCache = none) ∧
    ((getCurrentWeekEntries (updateEntry d p s)).1.get? (d - weekStart a).toNat).map
        (fun e => e.production) = some p := by
  refine ⟨getWeek_idempotent s, updateEntry_cache_none s d p h0 h1, ?_, ?_⟩
  · intro today htoday
    have hnt : ¬ today < a := not_lt.mpr htoday
    cases hg : listMapGet (some a) s.entriesMap with
    | some x => simp [onSubmit, ha, hnt, hg, updateEntriesState]
    | none => simp [onSubmit, ha, hnt, hg, updateEntriesState]
  · have hc := updateEntry_cache_none s d p h0 h1
    have han : (updateEntry d p s).anchor = some a := by
      rw [updateEntry_anchor]; exact ha
    have hweek : getCurrentWeekEntries (updateEntry d p s) =
        computeWeek (updateEntry d p s) (weekStart a) := by
      simp [getCurrentWeekEntries, han, hc]
    rw [hweek]
    have hi7 : (d - weekStart a).toNat < 7 := by omega
    have hidx : (weekDays (weekStart a)).get? (d - weekStart a).toNat =
        some (weekStart a + ((d - weekStart a).toNat : Int)) :=
      weekDays_get? (weekStart a) (d - weekStart a).toNat hi7
    have hday : weekStart a + ((d - weekStart a).toNat : Int) = d := by omega
    show ((materializeFrom (updateEntry d p s) (weekDays (weekStart a))
        (updateEntry d p s).nextId).1.get? (d - weekStart a).toNat).map
        (fun e => e.production) = some p
    rw [materializeFrom_get?_production, hidx]
    show some (mergedProduction (updateEntry d p s) (weekStart a + ((d - weekStart a).toNat : Int)))
        = some p
    rw [hday, mergedProduction_updateEntry_self s d p h0 h1]

theorem c7_witness :
    (0 : Rat) ≤ 42 ∧ (42 : Rat) ≤ 100 ∧
    (setAnchor 100 3 initState).anchor = some 3 ∧
    weekStart 3 ≤ 4 ∧ (4 : Int) ≤ weekStart 3 + 6 ∧
    (((getCurrentWeekEntries (getCurrentWeekEntries (setAnchor 100 3 initState)).2).1 =
        (getCurrentWeekEntries (setAnchor 100 3 initState)).1 ∧
      (getCurrentWeekEntries (getCurrentWeekEntries (setAnchor 100 3 initState)).2).2 =
        (getCurrentWeekEntries (setAnchor 100 3 initState)).2) ∧
     (updateEntry 4 42 (setAnchor 100 3 initState)).weeklyCache = none ∧
     (∀ today : Int, 3 ≤ today →
       (onSubmit today 42 (setAnchor 100 3 initState)).weeklyCache = none) ∧
     ((getCurrentWeekEntries (updateEntry 4 42 (setAnchor 100 3 initState))).1.get?
         ((4 : Int) - weekStart 3).toNat).map (fun e => e.production) = some 42) :=
  ⟨by norm_num, by norm_num, by norm_num [setAnchor, initState],
   by norm_num [weekStart], by norm_num [weekStart],
   c7_week_cache (setAnchor 100 3 initState) 4 3 42 (by norm_num) (by norm_num)
     (by norm_num [setAnchor, initState]) (by norm_num [weekStart]) (by norm_num [weekStart])⟩

/-- Claim C8: in any reachable save-system state at most one scheduled write
is pending; scheduling a save at t1 and then another at t2 (the second
mutation arriving inside the t1 + 500 ms window, so the first timer has not
fired) leaves exactly one pending timer, reset to fire at t2 + 500 ms and
carrying the latest snapshot; the cancelled first timer can no longer fire,
and firing the live timer produces exactly one write, of the latest
snapshot. -/
theorem c8_debounced_save (s : SaveSys) (t1 t2 : Int) (snap1 snap2 : List SolarEntry)
    (hr : SaveReachable s) (_hwin : t2 < t1 + saveDebounceMs) :
    s.timers.length ≤ 1 ∧
    (scheduleSave t2 snap2 (scheduleSave t1 snap1 s)).timers =
      [(s.nextTimer + 1, t2 + saveDebounceMs, snap2)] ∧
    fireSave s.nextTimer (scheduleSave t2 snap2 (scheduleSave t1 snap1 s)) =
      scheduleSave t2 snap2 (scheduleSave t1 snap1 s) ∧
    (fireSave (s.nextTimer + 1) (scheduleSave t2 snap2 (scheduleSave t1 snap1 s))).writes =
      s.writes ++ [snap2] ∧
    (fireSave (s.nextTimer + 1) (scheduleSave t2 snap2 (scheduleSave t1 snap1 s))).timers =
      [] := by
  have hinv := saveInv_of_reachable s hr
  obtain ⟨ht1, hn1, hr1, hw1⟩ := scheduleSave_spec t1 snap1 s hinv
  have hinv1 := saveInv_schedule t1 snap1 s hinv
  obtain ⟨ht2, hn2, hr2, hw2⟩ := scheduleSave_spec t2 snap2 _ hinv1
  rw [hn1] at ht2
  rw [hw1] at hw2
  have hglive : listMapGet (s.nextTimer + 1)
      (scheduleSave t2 snap2 (scheduleSave t1 snap1 s)).timers =
      some (t2 + saveDebounceMs, snap2) := by
    rw [ht2]; simp [listMapGet]
  refine ⟨hinv.1, ht2, ?_, ?_, ?_⟩
  · apply fireSave_miss
    rw [ht2]
    simp [listMapGet]
  · simp [fireSave, hglive, hw2]
  · simp [fireSave, ht2, listMapGet, listMapDel]

theorem c8_witness :
    (100 : Int) < 0 + saveDebounceMs ∧
    initSaveSys.timers.length ≤ 1 ∧
    (scheduleSave 100 [⟨some 1, 2, 3⟩] (scheduleSave 0 [] initSaveSys)).timers =
      [(initSaveSys.nextTimer + 1, 100 + saveDebounceMs, [⟨some 1, 2, 3⟩])] ∧
    fireSave initSaveSys.nextTimer
        (scheduleSave 100 [⟨some 1, 2, 3⟩] (scheduleSave 0 [] initSaveSys)) =
      scheduleSave 100 [⟨some 1, 2, 3⟩] (scheduleSave 0 [] initSaveSys) ∧
    (fireSave (initSaveSys.nextTimer + 1)
        (scheduleSave 100 [⟨some 1, 2, 3⟩] (scheduleSave 0 [] initSaveSys))).writes =
      initSaveSys.writes ++ [[⟨some 1, 2, 3⟩]] ∧
    (fireSave (initSaveSys.nextTimer + 1)
        (scheduleSave 100 [⟨some 1, 2, 3⟩] (scheduleSave 0 [] initSaveSys))).timers = [] :=
  ⟨by norm_num [saveDebounceMs],
   (c8_debounced_save initSaveSys 0 100 [] [⟨some 1, 2, 3⟩] SaveReachable.init
     (by norm_num [saveDebounceMs])).1,
   (c8_debounced_save initSaveSys 0 100 [] [⟨some 1, 2, 3⟩] SaveReachable.init
     (by norm_num [saveDebounceMs])).2.1,
   (c8_debounced_save initSaveSys 0 100 [] [⟨some 1, 2, 3⟩] SaveReachable.init
     (by norm_num [saveDebounceMs])).2.2.1,
   (c8_debounced_save initSaveSys 0 100 [] [⟨some 1, 2, 3⟩] SaveReachable.init
     (by norm_num [saveDebounceMs])).2.2.2.1,
   (c8_debounced_save initSaveSys 0 100 [] [⟨some 1, 2, 3⟩] SaveReachable.init
     (by norm_num [saveDebounceMs])).2.2.2.2⟩

theorem foldl_add_production (l : List SolarEntry) : ∀ b : Rat,
    l.foldl (fun s e => s + e.production) b = b + (l.map (fun e => e.production)).sum := by
  induction l with
  | nil => intro b; simp
  | cons e rest ih =>
      intro b
      simp only [List.foldl_cons, List.map_cons, List.sum_cons]
      rw [ih]
      ring

/-- Claim C3 (amended): for every input sequence, the stats computation
returns total = sum of productions (hence 0 when every production is 0, but
a negative sum if a negative production was loaded); dailyAverage = total
divided by the number of entries with production > 0, or 0 when there are
none; maxProduction = the running strict max from 0, which is the maximum
production when positive; maxProductionDay = the first entry (in iteration
order) attaining that maximum when it is positive, else absent; on an
all-zero week all stats are 0 with the max day absent; and the worker's
`calculateStats` computes exactly the same result as `weeklyStats`. -/
theorem c3_weekly_stats (l : List SolarEntry) :
    (weeklyStats l).weeklyTotal = (l.map (fun e => e.production)).sum ∧
    (weeklyStats l).dailyAverage =
      (if 0 < l.countP (fun e => decide (0 < e.production)) then
        (l.map (fun e => e.production)).sum /
          (l.countP (fun e => decide (0 < e.production)) : Rat)
      else 0) ∧
    (weeklyStats l).maxProduction = (l.map (fun e => e.production)).foldl max 0 ∧
    (weeklyStats l).maxProductionDay =
      (if 0 < (l.map (fun e => e.production)).foldl max 0 then
        l.find? (fun e => decide (e.production = (l.map (fun e => e.production)).foldl max 0))
      else none) ∧
    ((∀ e ∈ l, e.production = 0) →
      weeklyStats l = { weeklyTotal := 0, dailyAverage := 0, maxProduction := 0,
                        maxProductionDay := none }) ∧
    calculateStats l = weeklyStats l := by
  have hT : (weeklyStats l).weeklyTotal = (l.map (fun e => e.production)).sum := by
    cases l with
    | nil => simp [weeklyStats]
    | cons x rest =>
        unfold weeklyStats
        simp only [List.isEmpty_cons, Bool.false_eq_true, if_false]
        rw [foldl_statsStep_total]
        simp
  have hA : (weeklyStats l).dailyAverage =
      (if 0 < l.countP (fun e => decide (0 < e.production)) then
        (l.map (fun e => e.production)).sum /
          (l.countP (fun e => decide (0 < e.production)) : Rat)
      else 0) := by
    cases l with
    | nil => simp [weeklyStats]
    | cons x rest =>
        unfold weeklyStats
        simp only [List.isEmpty_cons, Bool.false_eq_true, if_false]
        rw [foldl_statsStep_days, foldl_statsStep_total]
        simp
  have hM : (weeklyStats l).maxProduction = (l.map (fun e => e.production)).foldl max 0 := by
    cases l with
    | nil => simp [weeklyStats]
    | cons x rest =>
        unfold weeklyStats
        simp only [List.isEmpty_cons, Bool.false_eq_true, if_false]
        rw [foldl_statsStep_max]
  have hD : (weeklyStats l).maxProductionDay =
      (if 0 < (l.map (fun e => e.production)).foldl max 0 then
        l.find? (fun e => decide (e.production = (l.map (fun e => e.production)).foldl max 0))
      else none) := by
    cases l with
    | nil => simp [weeklyStats]
    | cons x rest =>
        unfold weeklyStats
        simp only [List.isEmpty_cons, Bool.false_eq_true, if_false]
        rw [foldl_statsStep_maxDay]
  have hz : (∀ e ∈ l, e.production = 0) →
      weeklyStats l = { weeklyTotal := 0, dailyAverage := 0, maxProduction := 0,
                        maxProductionDay := none } := by
    intro h
    have hsum : (l.map (fun e => e.production)).sum = 0 := by
      apply List.sum_eq_zero
      intro q hq
      obtain ⟨e, he, rfl⟩ := List.mem_map.mp hq
      exact h e he
    have hcp : l.countP (fun e => decide (0 < e.production)) = 0 := by
      rw [List.countP_eq_zero]
      intro e he
      simp [h e he]
    have hMz : (l.map (fun e => e.production)).foldl max 0 = 0 := by
      apply foldl_max_all_zero
      intro q hq
      obtain ⟨e, he, rfl⟩ := List.mem_map.mp hq
      exact h e he
    have heta : weeklyStats l =
        { weeklyTotal := (weeklyStats l).weeklyTotal,
          dailyAverage := (weeklyStats l).dailyAverage,
          maxProduction := (weeklyStats l).maxProduction,
          maxProductionDay := (weeklyStats l).maxProductionDay } := rfl
    rw [heta, hT, hA, hM, hD, hsum, hcp, hMz]
    simp
  have hCalc : calculateStats l = weeklyStats l := by
    have cc1 : (calculateStats l).weeklyTotal = (l.map (fun e => e.production)).sum := by
      unfold calculateStats
      rw [foldl_add_production]
      simp
    have cc2 : (calculateStats l).dailyAverage =
        (if 0 < l.countP (fun e => decide (0 < e.production)) then
          (l.map (fun e => e.production)).sum /
            (l.countP (fun e => decide (0 < e.production)) : Rat)
        else 0) := by
      unfold calculateStats
      rw [foldl_add_production, ← List.countP_eq_length_filter]
      simp
    have cc3 : (calculateStats l).maxProduction =
        (l.map (fun e => e.production)).foldl max 0 := by
      simp only [calculateStats]
      rw [foldl_maxscan_fst]
    have cc4 : (calculateStats l).maxProductionDay =
        (if 0 < (l.map (fun e => e.production)).foldl max 0 then
          l.find? (fun e => decide (e.production = (l.map (fun e => e.production)).foldl max 0))
        else none) := by
      simp only [calculateStats]
      rw [foldl_maxscan_snd]
    have heta1 : calculateStats l =
        { weeklyTotal := (calculateStats l).weeklyTotal,
          dailyAverage := (calculateStats l).dailyAverage,
          maxProduction := (calculateStats l).maxProduction,
          maxProductionDay := (calculateStats l).maxProductionDay } := rfl
    have heta2 : weeklyStats l =
        { weeklyTotal := (weeklyStats l).weeklyTotal,
          dailyAverage := (weeklyStats l).dailyAverage,
          maxProduction := (weeklyStats l).maxProduction,
          maxProductionDay := (weeklyStats l).maxProductionDay } := rfl
    rw [heta1, heta2, cc1, cc2, cc3, cc4, hT, hA, hM, hD]
  exact ⟨hT, hA, hM, hD, hz, hCalc⟩

/-- Counterexample to claim C3 as stated: on an input whose only entry has a
negative production (reachable, since the bulk load does not validate the
numbers it stores), no entry has production > 0, yet the computed total is
-1 rather than 0 — "all numeric stats 0" fails. -/
theorem c3_counterexample :
    (∀ e ∈ ([⟨some 0, -1, 0⟩] : List SolarEntry), ¬ 0 < e.production) ∧
    (weeklyStats [⟨some 0, -1, 0⟩]).weeklyTotal = -1 ∧
    ¬ (weeklyStats [⟨some 0, -1, 0⟩]).weeklyTotal = 0 := by
  refine ⟨?_, ?_, ?_⟩
  · intro e he
    simp only [List.mem_singleton] at he
    rw [he]
    norm_num
  · norm_num [weeklyStats, statsStep]
  · norm_num [weeklyStats, statsStep]

theorem c3_witness :
    (∀ e ∈ ([⟨some 0, 0, 0⟩, ⟨some 1, 0, 1⟩] : List SolarEntry), e.production = 0) ∧
    weeklyStats [⟨some 0, 0, 0⟩, ⟨some 1, 0, 1⟩] =
      { weeklyTotal := 0, dailyAverage := 0, maxProduction := 0, maxProductionDay := none } := by
  have hz : ∀ e ∈ ([⟨some 0, 0, 0⟩, ⟨some 1, 0, 1⟩] : List SolarEntry), e.production = 0 := by
    intro e he
    rcases List.mem_cons.mp he with h | h
    · rw [h]
    · simp only [List.mem_singleton] at h
      rw [h]
  exact ⟨hz, (c3_weekly_stats _).2.2.2.2.1 hz⟩

/-! ### chunked-load lemmas -/

theorem loadEntries_small (raw : List RawEntry) (s : TrackerState)
    (h : raw.length ≤ chunkSize) :
    loadEntries raw s =
      { s with entries := s.entries ++ (processRaw s.nextId raw).1,
               entriesMap := ((processRaw s.nextId raw).1).foldl
                 (fun m e => listMapSet e.date e m) s.entriesMap,
               nextId := (processRaw s.nextId raw).2 } := by
  unfold loadEntries
  rw [processChunks]
  simp only [dif_neg (not_lt.mpr h), List.take_of_length_le h]

theorem finalChunk_small (l : List RawEntry) (h : l.length ≤ chunkSize) :
    finalChunk l = l := by
  rw [finalChunk, dif_neg (not_lt.mpr h)]

theorem finalChunk_length_le : ∀ (n : Nat) (l : List RawEntry), l.length ≤ n →
    (finalChunk l).length ≤ chunkSize := by
  intro n
  induction n with
  | zero =>
      intro l hl
      have hnil : l = [] := List.eq_nil_of_length_eq_zero (Nat.le_zero.mp hl)
      subst hnil
      rw [finalChunk_small [] (by simp [chunkSize])]
      simp [chunkSize]
  | succ n ih =>
      intro l hl
      by_cases h : chunkSize < l.length
      · rw [finalChunk, dif_pos h]
        apply ih
        simp only [List.length_drop]
        simp only [chunkSize] at h hl ⊢
        omega
      · rw [finalChunk, dif_neg h]
        exact not_lt.mp h

theorem processChunks_entries : ∀ (n : Nat) (raw : List RawEntry) (s : TrackerState),
    raw.length ≤ n →
    ((processChunks raw s).entries).map (fun e => e.date) =
      s.entries.map (fun e => e.date) ++ (finalChunk raw).map (fun r => r.date) ∧
    ((processChunks raw s).entries).map (fun e => e.production) =
      s.entries.map (fun e => e.production) ++ (finalChunk raw).map (fun r => r.production) ∧
    (processChunks raw s).entries.length = s.entries.length + (finalChunk raw).length := by
  intro n
  induction n with
  | zero =>
      intro raw s hl
      have hnil : raw = [] := List.eq_nil_of_length_eq_zero (Nat.le_zero.mp hl)
      subst hnil
      rw [processChunks]
      simp [chunkSize, processRaw, finalChunk_small [] (by simp [chunkSize])]
  | succ n ih =>
      intro raw s hl
      by_cases h : chunkSize < raw.length
      · rw [processChunks]
        simp only [dif_pos h]
        have hdl : (raw.drop chunkSize).length ≤ n := by
          simp only [List.length_drop]
          simp only [chunkSize] at h hl ⊢
          omega
        obtain ⟨h1, h2, h3⟩ := ih (raw.drop chunkSize) _ hdl
        rw [finalChunk, dif_pos h]
        exact ⟨by simpa using h1, by simpa using h2, by simpa using h3⟩
      · rw [processChunks]
        simp only [dif_neg h]
        rw [List.take_of_length_le (not_lt.mp h), finalChunk, dif_neg h]
        refine ⟨?_, ?_, ?_⟩
        · show (s.entries ++ (processRaw s.nextId raw).1).map (fun e => e.date) = _
          rw [List.map_append, processRaw_map_date]
        · show (s.entries ++ (processRaw s.nextId raw).1).map (fun e => e.production) = _
          rw [List.map_append, processRaw_map_production]
        · show (s.entries ++ (processRaw s.nextId raw).1).length = _
          rw [List.length_append, processRaw_length]

theorem processChunks_map_not_mem : ∀ (n : Nat) (raw : List RawEntry) (s : TrackerState)
    (k : Option Int), raw.length ≤ n → (∀ r ∈ raw, r.date ≠ k) →
    listMapGet k (processChunks raw s).entriesMap = listMapGet k s.entriesMap := by
  intro n
  induction n with
  | zero =>
      intro raw s k hl _
      have hnil : raw = [] := List.eq_nil_of_length_eq_zero (Nat.le_zero.mp hl)
      subst hnil
      rw [processChunks]
      simp [chunkSize, processRaw]
  | succ n ih =>
      intro raw s k hl hk
      have hchunk : ∀ e ∈ (processRaw s.nextId (raw.take chunkSize)).1, e.date ≠ k := by
        intro e he
        have hmem : e.date ∈ ((processRaw s.nextId (raw.take chunkSize)).1).map
            (fun e => e.date) := List.mem_map.mpr ⟨e, he, rfl⟩
        rw [processRaw_map_date] at hmem
        obtain ⟨r, hr, hrd⟩ := List.mem_map.mp hmem
        rw [← hrd]
        exact hk r (List.take_subset _ _ hr)
      by_cases h : chunkSize < raw.length
      · rw [processChunks]
        simp only [dif_pos h]
        have hdl : (raw.drop chunkSize).length ≤ n := by
          simp only [List.length_drop]
          simp only [chunkSize] at h hl ⊢
          omega
        rw [ih (raw.drop chunkSize) _ k hdl (fun r hr => hk r (List.drop_subset _ _ hr))]
        exact foldl_mapSet_not_mem _ _ k hchunk
      · rw [processChunks]
        simp only [dif_neg h]
        exact foldl_mapSet_not_mem _ _ k hchunk

theorem processChunks_map_last : ∀ (n : Nat) (raw : List RawEntry) (s : TrackerState)
    (k : Option Int) (r : RawEntry), raw.length ≤ n →
    raw.reverse.find? (fun r => decide (r.date = k)) = some r →
    ∃ e, listMapGet k (processChunks raw s).entriesMap = some e ∧
      e.date = r.date ∧ e.production = r.production := by
  intro n
  induction n with
  | zero =>
      intro raw s k r hl hr
      have hnil : raw = [] := List.eq_nil_of_length_eq_zero (Nat.le_zero.mp hl)
      subst hnil
      simp at hr
  | succ n ih =>
      intro raw s k r hl hr
      by_cases h : chunkSize < raw.length
      · have hsplit : raw.take chunkSize ++ raw.drop chunkSize = raw :=
          List.take_append_drop _ _
        rw [processChunks]
        simp only [dif_pos h]
        have hrev : raw.reverse = (raw.drop chunkSize).reverse ++ (raw.take chunkSize).reverse := by
          rw [← List.reverse_append, hsplit]
        rw [hrev, List.find?_append] at hr
        have hdl : (raw.drop chunkSize).length ≤ n := by
          simp only [List.length_drop]
          simp only [chunkSize] at h hl ⊢
          omega
        cases hd : (raw.drop chunkSize).reverse.find? (fun r => decide (r.date = k)) with
        | some rr =>
            rw [hd] at hr
            simp only [Option.or_some] at hr
            obtain rfl : rr = r := by injection hr
            exact ih (raw.drop chunkSize) _ k _ hdl hd
        | none =>
            rw [hd] at hr
            simp only [Option.none_or] at hr
            have hnone : ∀ y ∈ raw.drop chunkSize, y.date ≠ k := by
              intro y hy
              have := List.find?_eq_none.mp hd y (List.mem_reverse.mpr hy)
              simpa using this
            rw [processChunks_map_not_mem (raw.drop chunkSize).length
              (raw.drop chunkSize) _ k le_rfl hnone]
            have hdr : (((processRaw s.nextId (raw.take chunkSize)).1).reverse).map
                (fun e => e.date) = ((raw.take chunkSize).reverse).map (fun r => r.date) := by
              rw [List.map_reverse, List.map_reverse, processRaw_map_date]
            have hpr2 : (((processRaw s.nextId (raw.take chunkSize)).1).reverse).map
                (fun e => e.production) =
                ((raw.take chunkSize).reverse).map (fun r => r.production) := by
              rw [List.map_reverse, List.map_reverse, processRaw_map_production]
            obtain ⟨e, he, hed, hep⟩ := find?_date_transfer (raw.take chunkSize).reverse
              (((processRaw s.nextId (raw.take chunkSize)).1).reverse) hdr hpr2 k r hr
            exact ⟨e, foldl_mapSet_last _ _ k e he, hed, hep⟩
      · rw [processChunks]
        simp only [dif_neg h]
        rw [List.take_of_length_le (not_lt.mp h)]
        have hdr : (((processRaw s.nextId raw).1).reverse).map (fun e => e.date) =
            (raw.reverse).map (fun r => r.date) := by
          rw [List.map_reverse, List.map_reverse, processRaw_map_date]
        have hpr2 : (((processRaw s.nextId raw).1).reverse).map (fun e => e.production) =
            (raw.reverse).map (fun r => r.production) := by
          rw [List.map_reverse, List.map_reverse, processRaw_map_production]
        obtain ⟨e, he, hed, hep⟩ := find?_date_transfer raw.reverse
          (((processRaw s.nextId raw).1).reverse) hdr hpr2 k r hr
        exact ⟨e, foldl_mapSet_last _ _ k e he, hed, hep⟩

/-- Claim C4 (amended): the bulk load feeds every element of the input batch
through the same processing (production coerced to a number, date kept
as-is, id kept or freshly generated) into the date-keyed lookup map, which
keeps the last-seen element per date and leaves other bindings untouched —
no element is skipped and no warning is counted on the way into the map,
absent dates included; the entry listing, however, receives only the final
chunk of the ≤50-element chunked processing: for batches of at most 50
elements that is every element, in input order (so repeated dates produce
duplicate listing entries and the listing agrees with the map only when the
batch's dates are distinct), while for larger batches the earlier chunks
never reach the listing, so the listing grows by at most 50 elements and by
strictly fewer than the batch holds.  The worker's `processEntries`, which
has no chunking, processes every element. -/
theorem c4_bulk_load (raw : List RawEntry) (s : TrackerState) :
    (raw.length ≤ chunkSize →
      (loadEntries raw s).entries.length = s.entries.length + raw.length ∧
      ∀ i : Nat, i < raw.length →
        ((loadEntries raw s).entries.get? (s.entries.length + i)).map (fun e => e.date) =
          (raw.get? i).map (fun r => r.date) ∧
        ((loadEntries raw s).entries.get? (s.entries.length + i)).map
            (fun e => e.production) =
          (raw.get? i).map (fun r => r.production)) ∧
    (chunkSize < raw.length →
      (loadEntries raw s).entries.length ≤ s.entries.length + chunkSize ∧
      (loadEntries raw s).entries.length < s.entries.length + raw.length) ∧
    (∀ k : Option Int, (∀ r ∈ raw, r.date ≠ k) →
      listMapGet k (loadEntries raw s).entriesMap = listMapGet k s.entriesMap) ∧
    (∀ (k : Option Int) (r : RawEntry),
      raw.reverse.find? (fun r => decide (r.date = k)) = some r →
      ∃ e, listMapGet k (loadEntries raw s).entriesMap = some e ∧
        e.date = r.date ∧ e.production = r.production) ∧
    (∀ f : Nat, (processEntriesWorker f raw).1.length = raw.length) := by
  obtain ⟨hmd, hmp, hml⟩ := processChunks_entries raw.length raw s le_rfl
  refine ⟨?_, ?_, ?_, ?_, ?_⟩
  · intro hle
    have hfc : finalChunk raw = raw := finalChunk_small raw hle
    rw [hfc] at hmd hmp hml
    constructor
    · show (processChunks raw s).entries.length = _
      rw [hml]
    · intro i hi
      have hgetd : ((processChunks raw s).entries.map (fun e => e.date)).get?
          (s.entries.length + i) = (raw.map (fun r => r.date)).get? i := by
        rw [hmd, List.get?_append_right (by simp)]
        congr 1
        simp
      have hgetp : ((processChunks raw s).entries.map (fun e => e.production)).get?
          (s.entries.length + i) = (raw.map (fun r => r.production)).get? i := by
        rw [hmp, List.get?_append_right (by simp)]
        congr 1
        simp
      constructor
      · show ((processChunks raw s).entries.get? (s.entries.length + i)).map
            (fun e => e.date) = _
        rw [← List.get?_map, hgetd, List.get?_map]
      · show ((processChunks raw s).entries.get? (s.entries.length + i)).map
            (fun e => e.production) = _
        rw [← List.get?_map, hgetp, List.get?_map]
  · intro hgt
    have hfl : (finalChunk raw).length ≤ chunkSize :=
      finalChunk_length_le raw.length raw le_rfl
    constructor
    · show (processChunks raw s).entries.length ≤ _
      rw [hml]
      omega
    · show (processChunks raw s).entries.length < _
      rw [hml]
      simp only [chunkSize] at hgt hfl
      omega
  · intro k hk
    exact processChunks_map_not_mem raw.length raw s k le_rfl hk
  · intro k r hr
    exact processChunks_map_last raw.length raw s k r le_rfl hr
  · intro f
    rcases hpr : processRaw f raw with ⟨es, f2⟩
    have hlen : es.length = raw.length := by
      have := processRaw_length raw f
      rw [hpr] at this
      exact this
    simp [processEntriesWorker, hpr, hlen]

/-- Counterexample to claim C4 as stated: loading the (single-chunk) batch
[{date: absent, production: 3}, {id: 7, date: day 0, production: 1},
 {id: 8, date: day 0, production: 2}] stores all three elements — the
absent-date element is not skipped, day 0 occurs twice in the listing (so
the one-entry-per-date and listing/map agreement parts fail), while the
lookup map holds only the last-seen element for day 0. -/
theorem c4_counterexample :
    (loadEntries [⟨none, none, 3⟩, ⟨some 7, some 0, 1⟩, ⟨some 8, some 0, 2⟩]
        initState).entries.map (fun e => e.date) = [none, some 0, some 0] ∧
    (loadEntries [⟨none, none, 3⟩, ⟨some 7, some 0, 1⟩, ⟨some 8, some 0, 2⟩]
        initState).entries.map (fun e => e.production) = [3, 1, 2] ∧
    ¬ ((loadEntries [⟨none, none, 3⟩, ⟨some 7, some 0, 1⟩, ⟨some 8, some 0, 2⟩]
        initState).entries.map (fun e => e.date)).Nodup ∧
    (listMapGet (some 0)
        (loadEntries [⟨none, none, 3⟩, ⟨some 7, some 0, 1⟩, ⟨some 8, some 0, 2⟩]
          initState).entriesMap).map (fun e => e.production) = some 2 := by
  have hload := loadEntries_small
    [⟨none, none, 3⟩, ⟨some 7, some 0, 1⟩, ⟨some 8, some 0, 2⟩] initState
    (by norm_num [chunkSize])
  refine ⟨?_, ?_, ?_, ?_⟩ <;> rw [hload]
  · norm_num [processRaw, initState]
  · norm_num [processRaw, initState]
  · norm_num [processRaw, initState]
  · norm_num [processRaw, initState, listMapSet, listMapGet]
    exact ⟨⟨some 0, 2, 8⟩, by simp, rfl⟩

theorem c4_witness :
    ([⟨some 7, some 0, 1⟩, ⟨some 8, some 0, 2⟩] : List RawEntry).length ≤ chunkSize ∧
    (loadEntries [⟨some 7, some 0, 1⟩, ⟨some 8, some 0, 2⟩] initState).entries.length =
      initState.entries.length +
        ([⟨some 7, some 0, 1⟩, ⟨some 8, some 0, 2⟩] : List RawEntry).length ∧
    (∃ e, listMapGet (some 0)
        (loadEntries [⟨some 7, some 0, 1⟩, ⟨some 8, some 0, 2⟩] initState).entriesMap =
          some e ∧
      e.date = (⟨some 8, some 0, 2⟩ : RawEntry).date ∧
      e.production = (⟨some 8, some 0, 2⟩ : RawEntry).production) ∧
    chunkSize < (List.replicate 51 (⟨some 1, some 0, 1⟩ : RawEntry)).length ∧
    (loadEntries (List.replicate 51 ⟨some 1, some 0, 1⟩) initState).entries.length <
      initState.entries.length +
        (List.replicate 51 (⟨some 1, some 0, 1⟩ : RawEntry)).length :=
  ⟨by norm_num [chunkSize],
   ((c4_bulk_load _ initState).1 (by norm_num [chunkSize])).1,
   (c4_bulk_load _ initState).2.2.2.1 (some 0) ⟨some 8, some 0, 2⟩ (by simp [List.find?]),
   by norm_num [chunkSize],
   ((c4_bulk_load _ initState).2.1 (by norm_num [chunkSize])).2⟩


/-- Claim C1 (amended): in every state reachable through the validated entry
paths — upsert/updateEntry, form submission (whose value passed the form
schema), anchor changes and week materializations, but not the bulk load —
every entry of the collection has 0 ≤ production ≤ 100 and there is at most
one entry per distinct date.  (The bulk load can violate both bounds and
uniqueness, see the counterexample.) -/
theorem c1_invariant_upsert_paths (s : TrackerState) (h : ReachableNoLoad s) :
    (∀ e ∈ s.entries, 0 ≤ e.production ∧ e.production ≤ 100) ∧
    (s.entries.map (fun e => e.date)).Nodup := by
  obtain ⟨hb, hn, -⟩ := storeInv_of_reachableNoLoad s h
  exact ⟨hb, hn⟩

/-- Counterexample to claim C1 as stated: the state reached from the empty
store by the bulk load of the single stored element
{id: 1, date: day 0, production: 500} is reachable, yet its entry collection
holds an entry whose production 500 violates the [0, 100] bound — the load
path coerces the number but never checks the domain bounds. -/
theorem c1_counterexample :
    Reachable (loadEntries [⟨some 1, some 0, 500⟩] initState) ∧
    ∃ e ∈ (loadEntries [⟨some 1, some 0, 500⟩] initState).entries,
      ¬ (0 ≤ e.production ∧ e.production ≤ 100) := by
  constructor
  · exact Reachable.load _ Reachable.init
  · refine ⟨⟨some 0, 500, 1⟩, ?_, ?_⟩
    · rw [loadEntries_small [⟨some 1, some 0, 500⟩] initState (by norm_num [chunkSize])]
      norm_num [processRaw, initState]
    · norm_num

theorem c1_witness :
    ReachableNoLoad (updateEntry 0 5 initState) ∧
    (∀ e ∈ (updateEntry 0 5 initState).entries, 0 ≤ e.production ∧ e.production ≤ 100) ∧
    ((updateEntry 0 5 initState).entries.map (fun e => e.date)).Nodup :=
  ⟨ReachableNoLoad.upsert 0 5 ReachableNoLoad.init,
   (c1_invariant_upsert_paths _ (ReachableNoLoad.upsert 0 5 ReachableNoLoad.init)).1,
   (c1_invariant_upsert_paths _ (ReachableNoLoad.upsert 0 5 ReachableNoLoad.init)).2⟩

/-- Claim C2 (amended): for an established anchor, the week window
[weekStart(anchor) .. +6] does contain the anchor and starts on the fixed
week-start day (Sunday, index 0); when the single-slot cache is empty or
keyed to a different week start, materializing returns exactly 7 entries
whose dates are the 7 consecutive days from weekStart(anchor), each day's
production being the pending-overlay value if present, else the stored
entry's production, else 0; but when the cache slot matches the requested
week start the previously cached sequence is returned as-is — and the bulk
load does not invalidate that slot, so it may predate the loaded data (see
the counterexample). -/
theorem c2_materialize_week (s : TrackerState) (a : Int) (ha : s.anchor = some a) :
    (weekStart a ≤ a ∧ a ≤ weekStart a + 6 ∧ (weekStart a + 4) % 7 = 0) ∧
    (∀ es, s.weeklyCache = some (weekStart a, es) → (getCurrentWeekEntries s).1 = es) ∧
    ((s.weeklyCache = none ∨ ∀ c es, s.weeklyCache = some (c, es) → c ≠ weekStart a) →
      (getCurrentWeekEntries s).1.length = 7 ∧
      ∀ i : Nat, i < 7 →
        ((getCurrentWeekEntries s).1.get? i).map (fun e => e.date) =
          some (some (weekStart a + i)) ∧
        ((getCurrentWeekEntries s).1.get? i).map (fun e => e.production) =
          some (mergedProduction s (weekStart a + i))) := by
  refine ⟨?_, ?_, ?_⟩
  · unfold weekStart
    refine ⟨?_, ?_, ?_⟩ <;> omega
  · intro es hc
    simp [getCurrentWeekEntries, ha, hc]
  · intro hcond
    have hcw : getCurrentWeekEntries s = computeWeek s (weekStart a) := by
      cases hc : s.weeklyCache with
      | none => simp [getCurrentWeekEntries, ha, hc]
      | some ces =>
          obtain ⟨c, es⟩ := ces
          rcases hcond with hnone | hne
          · rw [hc] at hnone
            cases hnone
          · have : c ≠ weekStart a := hne c es hc
            simp [getCurrentWeekEntries, ha, hc, this]
    rw [hcw]
    constructor
    · show ((materializeFrom s (weekDays (weekStart a)) s.nextId).1).length = 7
      rw [materializeFrom_length]
      rfl
    · intro i hi
      constructor
      · show ((materializeFrom s (weekDays (weekStart a)) s.nextId).1.get? i).map
            (fun e => e.date) = _
        rw [materializeFrom_get?_date, weekDays_get? _ _ hi]
        rfl
      · show ((materializeFrom s (weekDays (weekStart a)) s.nextId).1.get? i).map
            (fun e => e.production) = _
        rw [materializeFrom_get?_production, weekDays_get? _ _ hi]
        rfl

/-- Counterexample to claim C2 as stated: set the anchor to day 3 (a Sunday),
materialize the week (filling the cache with zero-production placeholders),
then bulk-load a stored entry for day 3 with production 5.  The state is
reachable, the anchor is established, the merge rule demands production 5
for day 3 (the entry is stored, no pending value), yet materializing
returns the stale cached sequence with production 0 — the bulk load does
not invalidate the week cache. -/
theorem c2_counterexample :
    Reachable (loadEntries [⟨some 99, some 3, 5⟩]
      (getCurrentWeekEntries (setAnchor 100 3 initState)).2) ∧
    (loadEntries [⟨some 99, some 3, 5⟩]
      (getCurrentWeekEntries (setAnchor 100 3 initState)).2).anchor = some 3 ∧
    weekStart 3 = 3 ∧
    mergedProduction (loadEntries [⟨some 99, some 3, 5⟩]
      (getCurrentWeekEntries (setAnchor 100 3 initState)).2) 3 = 5 ∧
    ((getCurrentWeekEntries (loadEntries [⟨some 99, some 3, 5⟩]
        (getCurrentWeekEntries (setAnchor 100 3 initState)).2)).1.get? 0).map
      (fun e => e.production) = some 0 := by
  have hload := loadEntries_small [⟨some 99, some 3, 5⟩]
    ((getCurrentWeekEntries (setAnchor 100 3 initState)).2) (by norm_num [chunkSize])
  refine ⟨Reachable.load _ (Reachable.week (Reachable.anchor 100 3 Reachable.init)),
    ?_, ?_, ?_, ?_⟩
  · rw [hload]
    norm_num [processRaw, getCurrentWeekEntries, computeWeek, setAnchor,
      initState, weekStart]
  · norm_num [weekStart]
  · rw [hload]
    norm_num [mergedProduction, processRaw, getCurrentWeekEntries, computeWeek,
      materializeFrom, materializeDay, weekDays, setAnchor, initState, weekStart,
      listMapGet, listMapSet]
  · rw [hload]
    norm_num [mergedProduction, processRaw, getCurrentWeekEntries, computeWeek,
      materializeFrom, materializeDay, weekDays, setAnchor, initState, weekStart,
      listMapGet, listMapSet]

theorem c2_witness :
    (setAnchor 100 3 initState).anchor = some 3 ∧
    ((setAnchor 100 3 initState).weeklyCache = none ∨
      ∀ c es, (setAnchor 100 3 initState).weeklyCache = some (c, es) → c ≠ weekStart 3) ∧
    (getCurrentWeekEntries (setAnchor 100 3 initState)).1.length = 7 ∧
    (∀ i : Nat, i < 7 →
      ((getCurrentWeekEntries (setAnchor 100 3 initState)).1.get? i).map (fun e => e.date) =
        some (some (weekStart 3 + i)) ∧
      ((getCurrentWeekEntries (setAnchor 100 3 initState)).1.get? i).map
        (fun e => e.production) =
        some (mergedProduction (setAnchor 100 3 initState) (weekStart 3 + i))) := by
  have ha : (setAnchor 100 3 initState).anchor = some 3 := by
    norm_num [setAnchor, initState]
  have hcache : (setAnchor 100 3 initState).weeklyCache = none := by
    norm_num [setAnchor, initState]
  have h := (c2_materialize_week (setAnchor 100 3 initState) 3 ha).2.2 (Or.inl hcache)
  exact ⟨ha, Or.inl hcache, h.1, h.2⟩
